import Mathlib

/-!
Verification of the Poseidon sponge gadget (`src/src/poseidon/constraints.rs`,
`PoseidonSpongeVar`).

The embedding is a shallow one.  A circuit field variable (`FpVar<F>`) is a
value of an abstract commutative ring `F`; the circuit operations that can
fail with a `SynthesisError` (`pow_by_constant`, `to_bytes`, `to_bits_le`)
are supplied as oracle functions returning `Except E _`, where `E` is the
opaque error type, and `B` is the opaque byte-variable type (`UInt8<F>`).
A Rust method `fn m(&mut self, ..) -> Result<T, SynthesisError>` becomes a
Lean function `... → PoseidonSpongeVar F → PoseidonSpongeVar F × Except E T`:
the first component is the receiver as the method left it (also on an early
`?` return), the second is the returned `Result`.

The `permCount` field is a ghost instrumentation counter, absent from the
Rust struct: it is bumped exactly when `permute` commits, so that claims
about the number of permutations performed become stateable.  The `cs`
field (the constraint-system handle) is omitted: it is never read by the
sponge logic itself.
-/

set_option maxHeartbeats 1000000

/-- The two sponge modes with their cursor into the rate portion of the
state; mirrors the crate enum `PoseidonSpongeMode` as used by
`constraints.rs`. -/
inductive PoseidonSpongeMode : Type where
  | Absorbing (next_absorb_index : Nat)
  | Squeezing (next_squeeze_index : Nat)
  deriving DecidableEq

/-- The round-parameter provider (`PoseidonParameters<F>`), with the fields
`constraints.rs` reads: round numbers, S-box exponent, additive round keys
and the MDS matrix. -/
structure PoseidonParameters (F : Type) where
  full_rounds : Nat
  partial_rounds : Nat
  alpha : Nat
  ark : List (List F)
  mds : List (List F)
  deriving DecidableEq

/-- The fallible circuit operations on field variables used by the gadget:
`pow` models `FpVar::pow_by_constant` (with the single-limb exponent),
`toBytes` models `FpVar::to_bytes` (little-endian byte decomposition),
`toBitsLe` models `FpVar::to_bits_le`, and `CAPACITY` models
`F::Params::CAPACITY`, the safe bit capacity of the field. -/
structure FieldOps (F E B : Type) where
  pow : F → Nat → Except E F
  toBytes : F → Except E (List B)
  toBitsLe : F → Except E (List Bool)
  CAPACITY : Nat

/-- The sponge gadget struct `PoseidonSpongeVar<F>` of `constraints.rs`
(without the `cs` handle, and with the ghost `permCount`). -/
structure PoseidonSpongeVar (F : Type) where
  full_rounds : Nat
  partial_rounds : Nat
  alpha : Nat
  ark : List (List F)
  mds : List (List F)
  rate : Nat
  capacity : Nat
  state : List F
  mode : PoseidonSpongeMode
  permCount : Nat
  deriving DecidableEq

variable {F E B : Type} [CommRing F]

/-- `PoseidonSpongeVar::apply_s_box`: in a full round the S-box is applied
to every state element, in a partial round only to the last element
(`state[state.len() - 1]`).  Each `pow_by_constant` call can fail. -/
def PoseidonSpongeVar.apply_s_box (ops : FieldOps F E B) (s : PoseidonSpongeVar F)
    (state : List F) (is_full_round : Bool) : Except E (List F) :=
  if is_full_round then
    state.mapM (fun state_item => ops.pow state_item s.alpha)
  else
    match ops.pow (state.getD (state.length - 1) 0) s.alpha with
    | .error e => .error e
    | .ok y => .ok (state.set (state.length - 1) y)

/-- `PoseidonSpongeVar::apply_ark`: add `self.ark[round_number][i]` to each
`state[i]`.  Always returns `Ok`. -/
def PoseidonSpongeVar.apply_ark (s : PoseidonSpongeVar F) (state : List F)
    (round_number : Nat) : Except E (List F) :=
  .ok (state.mapIdx (fun i state_elem => state_elem + (s.ark.getD round_number []).getD i 0))

/-- `PoseidonSpongeVar::apply_mds`: `new_state[i]` accumulates
`state[j] * self.mds[i][j]` over `j` starting from zero, and the whole new
state replaces the old one.  Always returns `Ok`. -/
def PoseidonSpongeVar.apply_mds (s : PoseidonSpongeVar F) (state : List F) :
    Except E (List F) :=
  .ok ((List.range state.length).map (fun i =>
    state.enum.foldl (fun cur je => cur + je.2 * (s.mds.getD i []).getD je.1 0) 0))

/-- One round body of `PoseidonSpongeVar::permute`: add-round-key, S-box,
MDS multiply, in that order, on the local state copy. -/
def PoseidonSpongeVar.poseidon_round (ops : FieldOps F E B) (s : PoseidonSpongeVar F)
    (is_full_round : Bool) (state : List F) (i : Nat) : Except E (List F) := do
  let state ← s.apply_ark state i
  let state ← PoseidonSpongeVar.apply_s_box ops s state is_full_round
  s.apply_mds (E := E) state

/-- The round loops of `PoseidonSpongeVar::permute`, run on the local copy
`state` of `self.state`: rounds `0..full_rounds/2` full, then
`full_rounds/2..full_rounds/2+partial_rounds` partial, then
`full_rounds/2+partial_rounds..partial_rounds+full_rounds` full. -/
def PoseidonSpongeVar.permute_rounds (ops : FieldOps F E B) (s : PoseidonSpongeVar F) :
    Except E (List F) := do
  let full_rounds_over_2 := s.full_rounds / 2
  let state := s.state
  let state ← (List.range' 0 full_rounds_over_2).foldlM
      (PoseidonSpongeVar.poseidon_round ops s true) state
  let state ← (List.range' full_rounds_over_2 s.partial_rounds).foldlM
      (PoseidonSpongeVar.poseidon_round ops s false) state
  let state ← (List.range' (full_rounds_over_2 + s.partial_rounds)
      ((s.partial_rounds + s.full_rounds) - (full_rounds_over_2 + s.partial_rounds))).foldlM
      (PoseidonSpongeVar.poseidon_round ops s true) state
  pure state

/-- `PoseidonSpongeVar::permute`: the rounds run on a local clone of the
state; `self.state` is written once, after every round step succeeded.  On
an error the receiver is exactly the input receiver. -/
def PoseidonSpongeVar.permute (ops : FieldOps F E B) (s : PoseidonSpongeVar F) :
    PoseidonSpongeVar F × Except E Unit :=
  match PoseidonSpongeVar.permute_rounds ops s with
  | .error e => (s, .error e)
  | .ok state => ({ s with state := state, permCount := s.permCount + 1 }, .ok ())

/-- The fill loop of `absorb_internal`:
`self.state[i + rate_start_index] += elements[i]` for each `i`. -/
def absorb_add (state : List F) (rate_start_index : Nat) (elements : List F) : List F :=
  elements.enum.foldl
    (fun st ie =>
      st.set (ie.1 + rate_start_index) (st.getD (ie.1 + rate_start_index) 0 + ie.2))
    state

/-- `PoseidonSpongeVar::absorb_internal`.  The Rust `loop` becomes
recursion on the unconsumed elements.  The second branch guards the one
configuration (`rate = 0` with `rate_start_index = 0`) in which the Rust
loop never terminates; it is unreachable for the constructed sponge
(`rate = 2`) and returns the receiver unchanged. -/
def PoseidonSpongeVar.absorb_internal (ops : FieldOps F E B) (s : PoseidonSpongeVar F)
    (rate_start_index : Nat) (elements : List F) :
    PoseidonSpongeVar F × Except E Unit :=
  if h1 : rate_start_index + elements.length ≤ s.rate then
    ({ s with
        state := absorb_add s.state rate_start_index elements,
        mode := .Absorbing (rate_start_index + elements.length) }, .ok ())
  else if h2 : s.rate = 0 ∧ rate_start_index = 0 then
    (s, .ok ())
  else
    match PoseidonSpongeVar.permute ops
        { s with state :=
            absorb_add s.state rate_start_index (elements.take (s.rate - rate_start_index)) } with
    | (s2, .error e) => (s2, .error e)
    | (s2, .ok _) =>
        PoseidonSpongeVar.absorb_internal ops s2 0
          (elements.drop (s.rate - rate_start_index))
termination_by rate_start_index + elements.length
decreasing_by
  simp only [List.length_drop]
  omega

/-- `PoseidonSpongeVar::squeeze_internal`, with the output buffer of length
`output_len` modelled by the returned list.  The permute is skipped exactly
when the remaining output length at the check equals `self.rate`.  The
guard branch is as in `absorb_internal`. -/
def PoseidonSpongeVar.squeeze_internal (ops : FieldOps F E B) (s : PoseidonSpongeVar F)
    (rate_start_index : Nat) (output_len : Nat) :
    PoseidonSpongeVar F × Except E (List F) :=
  if h1 : rate_start_index + output_len ≤ s.rate then
    ({ s with mode := .Squeezing (rate_start_index + output_len) },
      .ok ((s.state.drop rate_start_index).take output_len))
  else if h2 : s.rate = 0 ∧ rate_start_index = 0 then
    (s, .ok [])
  else
    let chunk := (s.state.drop rate_start_index).take (s.rate - rate_start_index)
    match (if output_len ≠ s.rate then PoseidonSpongeVar.permute ops s else (s, .ok ())) with
    | (s2, .error e) => (s2, .error e)
    | (s2, .ok _) =>
        match PoseidonSpongeVar.squeeze_internal ops s2 0
            (output_len - (s.rate - rate_start_index)) with
        | (s3, .error e) => (s3, .error e)
        | (s3, .ok rest) => (s3, .ok (chunk ++ rest))
termination_by rate_start_index + output_len
decreasing_by omega

/-- `PoseidonSpongeVar::new`: rate 2, capacity 1, all-zero state, mode
`Absorbing { next_absorb_index: 0 }`. -/
def PoseidonSpongeVar.new (params : PoseidonParameters F) : PoseidonSpongeVar F :=
  let rate := 2
  let capacity := 1
  { full_rounds := params.full_rounds
    partial_rounds := params.partial_rounds
    alpha := params.alpha
    ark := params.ark
    mds := params.mds
    rate := rate
    capacity := capacity
    state := List.replicate (rate + capacity) 0
    mode := .Absorbing 0
    permCount := 0 }

/-- `PoseidonSpongeVar::absorb`.  The argument `input` is the result of
`input.to_sponge_field_elements()`, an external fallible conversion whose
error the `?` propagates before anything else happens. -/
def PoseidonSpongeVar.absorb (ops : FieldOps F E B) (s : PoseidonSpongeVar F)
    (input : Except E (List F)) : PoseidonSpongeVar F × Except E Unit :=
  match input with
  | .error e => (s, .error e)
  | .ok input =>
    if input.isEmpty then (s, .ok ())
    else
      match s.mode with
      | .Absorbing next_absorb_index =>
        if next_absorb_index = s.rate then
          match PoseidonSpongeVar.permute ops s with
          | (s2, .error e) => (s2, .error e)
          | (s2, .ok _) => PoseidonSpongeVar.absorb_internal ops s2 0 input
        else
          PoseidonSpongeVar.absorb_internal ops s next_absorb_index input
      | .Squeezing _ =>
        match PoseidonSpongeVar.permute ops s with
        | (s2, .error e) => (s2, .error e)
        | (s2, .ok _) => PoseidonSpongeVar.absorb_internal ops s2 0 input

/-- `PoseidonSpongeVar::squeeze_field_elements`. -/
def PoseidonSpongeVar.squeeze_field_elements (ops : FieldOps F E B)
    (s : PoseidonSpongeVar F) (num_elements : Nat) :
    PoseidonSpongeVar F × Except E (List F) :=
  match s.mode with
  | .Absorbing _ =>
    match PoseidonSpongeVar.permute ops s with
    | (s2, .error e) => (s2, .error e)
    | (s2, .ok _) => PoseidonSpongeVar.squeeze_internal ops s2 0 num_elements
  | .Squeezing next_squeeze_index =>
    if next_squeeze_index = s.rate then
      match PoseidonSpongeVar.permute ops s with
      | (s2, .error e) => (s2, .error e)
      | (s2, .ok _) => PoseidonSpongeVar.squeeze_internal ops s2 0 num_elements
    else
      PoseidonSpongeVar.squeeze_internal ops s next_squeeze_index num_elements

/-- `PoseidonSpongeVar::squeeze_bytes`: squeeze
`ceil(num_bytes / usable_bytes)` elements, keep the low `usable_bytes`
bytes of each little-endian decomposition, concatenate, truncate. -/
def PoseidonSpongeVar.squeeze_bytes (ops : FieldOps F E B) (s : PoseidonSpongeVar F)
    (num_bytes : Nat) : PoseidonSpongeVar F × Except E (List B) :=
  let usable_bytes := ops.CAPACITY / 8
  let num_elements := (num_bytes + usable_bytes - 1) / usable_bytes
  match PoseidonSpongeVar.squeeze_field_elements ops s num_elements with
  | (s2, .error e) => (s2, .error e)
  | (s2, .ok src_elements) =>
    match src_elements.mapM (fun elem => (ops.toBytes elem).map (fun bs => bs.take usable_bytes)) with
    | .error e => (s2, .error e)
    | .ok pieces => (s2, .ok (pieces.flatten.take num_bytes))

/-- `PoseidonSpongeVar::squeeze_bits`: as `squeeze_bytes`, with
`usable_bits = CAPACITY` bits of the little-endian bit decomposition. -/
def PoseidonSpongeVar.squeeze_bits (ops : FieldOps F E B) (s : PoseidonSpongeVar F)
    (num_bits : Nat) : PoseidonSpongeVar F × Except E (List Bool) :=
  let usable_bits := ops.CAPACITY
  let num_elements := (num_bits + usable_bits - 1) / usable_bits
  match PoseidonSpongeVar.squeeze_field_elements ops s num_elements with
  | (s2, .error e) => (s2, .error e)
  | (s2, .ok src_elements) =>
    match src_elements.mapM (fun elem => (ops.toBitsLe elem).map (fun bs => bs.take usable_bits)) with
    | .error e => (s2, .error e)
    | .ok pieces => (s2, .ok (pieces.flatten.take num_bits))

/-! Generic lemmas about `Except`-valued list traversals. -/

theorem mapM_ok_of_ok {α β : Type} (f : α → Except E β) (g : α → β) :
    ∀ (l : List α), (∀ a ∈ l, f a = .ok (g a)) → l.mapM f = .ok (l.map g)
  | [], _ => rfl
  | a :: l, h => by
    rw [List.mapM_cons, h a (by simp), List.map_cons,
      mapM_ok_of_ok f g l (fun b hb => h b (by simp [hb]))]
    rfl

theorem mapM_ok_length {α β : Type} (f : α → Except E β) :
    ∀ (l : List α) (l2 : List β), l.mapM f = .ok l2 → l2.length = l.length
  | [], l2, h => by
    simp only [List.mapM_nil, pure, Except.pure] at h
    cases h; rfl
  | a :: l, l2, h => by
    rw [List.mapM_cons] at h
    cases hfa : f a with
    | error e => rw [hfa] at h; exact absurd h (by simp [Bind.bind, Except.bind])
    | ok b =>
      rw [hfa] at h
      cases hrest : l.mapM f with
      | error e => rw [hrest] at h; exact absurd h (by simp [Bind.bind, Except.bind])
      | ok bs =>
        rw [hrest] at h
        simp only [Bind.bind, Except.bind, pure, Except.pure, Except.ok.injEq] at h
        subst h
        simpa using mapM_ok_length f l bs hrest

theorem foldlM_ok_of_ok {α β : Type} (f : β → α → Except E β) (g : β → α → β) :
    ∀ (l : List α) (b : β), (∀ b2 a, a ∈ l → f b2 a = .ok (g b2 a)) →
      l.foldlM f b = .ok (l.foldl g b)
  | [], b, _ => rfl
  | a :: l, b, h => by
    rw [List.foldlM_cons, h b a (by simp), List.foldl_cons]
    exact foldlM_ok_of_ok f g l (g b a) (fun b2 a2 ha2 => h b2 a2 (by simp [ha2]))

theorem foldlM_ok_invariant {α β : Type} (P : β → Prop) (f : β → α → Except E β) :
    ∀ (l : List α) (b : β) (b2 : β),
      (∀ c a c2, a ∈ l → P c → f c a = .ok c2 → P c2) →
      P b → l.foldlM f b = .ok b2 → P b2
  | [], b, b2, _, hb, h => by
    simp only [List.foldlM_nil, pure, Except.pure, Except.ok.injEq] at h
    exact h ▸ hb
  | a :: l, b, b2, hstep, hb, h => by
    rw [List.foldlM_cons] at h
    cases hfa : f b a with
    | error e => rw [hfa] at h; exact absurd h (by simp [Bind.bind, Except.bind])
    | ok c =>
      rw [hfa] at h
      simp only [Bind.bind, Except.bind] at h
      exact foldlM_ok_invariant P f l c b2
        (fun c1 a1 c2 ha1 => hstep c1 a1 c2 (by simp [ha1]))
        (hstep b a c (by simp) hb hfa) h

/-! Lemmas characterising `permute`. -/

theorem apply_ark_ok_length (s : PoseidonSpongeVar F) (st st2 : List F) (i : Nat)
    (h : PoseidonSpongeVar.apply_ark (E := E) s st i = .ok st2) : st2.length = st.length := by
  rw [PoseidonSpongeVar.apply_ark] at h
  cases h
  simp

theorem apply_s_box_ok_length (ops : FieldOps F E B) (s : PoseidonSpongeVar F)
    (st st2 : List F) (b : Bool)
    (h : PoseidonSpongeVar.apply_s_box ops s st b = .ok st2) : st2.length = st.length := by
  rw [PoseidonSpongeVar.apply_s_box] at h
  cases b with
  | true =>
    simp only [if_true] at h
    exact mapM_ok_length _ st st2 h
  | false =>
    simp only [Bool.false_eq_true, if_false] at h
    cases hp : ops.pow (st.getD (st.length - 1) 0) s.alpha with
    | error e => rw [hp] at h; cases h
    | ok y => rw [hp] at h; cases h; simp

theorem apply_mds_ok_length (s : PoseidonSpongeVar F) (st st2 : List F)
    (h : PoseidonSpongeVar.apply_mds (E := E) s st = .ok st2) : st2.length = st.length := by
  rw [PoseidonSpongeVar.apply_mds] at h
  cases h
  simp

theorem poseidon_round_ok_length (ops : FieldOps F E B) (s : PoseidonSpongeVar F)
    (b : Bool) (st st2 : List F) (i : Nat)
    (h : PoseidonSpongeVar.poseidon_round ops s b st i = .ok st2) :
    st2.length = st.length := by
  rw [PoseidonSpongeVar.poseidon_round] at h
  simp only [Bind.bind, Except.bind, PoseidonSpongeVar.apply_ark] at h
  cases hsb : PoseidonSpongeVar.apply_s_box ops s
      (st.mapIdx fun idx x => x + (s.ark.getD i []).getD idx 0) b with
  | error e => rw [hsb] at h; cases h
  | ok st3 =>
    rw [hsb] at h
    have h3 : st3.length = st.length := by
      have := apply_s_box_ok_length ops s _ st3 b hsb
      simpa using this
    have h4 := apply_mds_ok_length s st3 st2 h
    omega

theorem permute_rounds_ok_length (ops : FieldOps F E B) (s : PoseidonSpongeVar F)
    (st : List F) (h : PoseidonSpongeVar.permute_rounds ops s = .ok st) :
    st.length = s.state.length := by
  rw [PoseidonSpongeVar.permute_rounds] at h
  simp only [Bind.bind, Except.bind] at h
  cases h1 : (List.range' 0 (s.full_rounds / 2)).foldlM
      (PoseidonSpongeVar.poseidon_round ops s true) s.state with
  | error e => simp only [h1] at h; cases h
  | ok stA =>
    simp only [h1] at h
    cases h2 : (List.range' (s.full_rounds / 2) s.partial_rounds).foldlM
        (PoseidonSpongeVar.poseidon_round ops s false) stA with
    | error e => simp only [h2] at h; cases h
    | ok stB =>
      simp only [h2] at h
      cases h3 : (List.range' (s.full_rounds / 2 + s.partial_rounds)
          (s.partial_rounds + s.full_rounds - (s.full_rounds / 2 + s.partial_rounds))).foldlM
          (PoseidonSpongeVar.poseidon_round ops s true) stB with
      | error e => simp only [h3] at h; cases h
      | ok stC =>
        simp only [h3, pure, Except.pure, Except.ok.injEq] at h
        subst h
        have hA : stA.length = s.state.length :=
          foldlM_ok_invariant (fun l => l.length = s.state.length) _ _ _ _
            (fun c a c2 _ hc hs => (poseidon_round_ok_length ops s true c c2 a hs).trans hc)
            rfl h1
        have hB : stB.length = s.state.length :=
          foldlM_ok_invariant (fun l => l.length = s.state.length) _ _ _ _
            (fun c a c2 _ hc hs => (poseidon_round_ok_length ops s false c c2 a hs).trans hc)
            hA h2
        exact foldlM_ok_invariant (fun l => l.length = s.state.length) _ _ _ _
          (fun c a c2 _ hc hs => (poseidon_round_ok_length ops s true c c2 a hs).trans hc)
          hB h3

theorem permute_err_eq (ops : FieldOps F E B) (s : PoseidonSpongeVar F) (e : E)
    (h : PoseidonSpongeVar.permute_rounds ops s = .error e) :
    PoseidonSpongeVar.permute ops s = (s, .error e) := by
  rw [PoseidonSpongeVar.permute, h]

theorem permute_ok_eq (ops : FieldOps F E B) (s : PoseidonSpongeVar F) (st : List F)
    (h : PoseidonSpongeVar.permute_rounds ops s = .ok st) :
    PoseidonSpongeVar.permute ops s =
      ({ s with state := st, permCount := s.permCount + 1 }, .ok ()) := by
  rw [PoseidonSpongeVar.permute, h]

theorem permute_cases (ops : FieldOps F E B) (s : PoseidonSpongeVar F) :
    (∃ e, PoseidonSpongeVar.permute_rounds ops s = .error e ∧
      PoseidonSpongeVar.permute ops s = (s, .error e)) ∨
    (∃ st, st.length = s.state.length ∧
      PoseidonSpongeVar.permute ops s =
        ({ s with state := st, permCount := s.permCount + 1 }, .ok ())) := by
  cases h : PoseidonSpongeVar.permute_rounds ops s with
  | error e => exact Or.inl ⟨e, rfl, permute_err_eq ops s e h⟩
  | ok st => exact Or.inr ⟨st, permute_rounds_ok_length ops s st h, permute_ok_eq ops s st h⟩

theorem permute_ok_inv (ops : FieldOps F E B) (s s1 : PoseidonSpongeVar F) (u : Unit)
    (h : PoseidonSpongeVar.permute ops s = (s1, .ok u)) :
    s1.full_rounds = s.full_rounds ∧ s1.partial_rounds = s.partial_rounds ∧
    s1.alpha = s.alpha ∧ s1.ark = s.ark ∧ s1.mds = s.mds ∧
    s1.rate = s.rate ∧ s1.capacity = s.capacity ∧ s1.mode = s.mode ∧
    s1.state.length = s.state.length ∧ s1.permCount = s.permCount + 1 := by
  rcases permute_cases ops s with ⟨e, _, hp⟩ | ⟨st, hlen, hp⟩
  · rw [hp] at h; cases h
  · rw [hp] at h
    cases h
    exact ⟨rfl, rfl, rfl, rfl, rfl, rfl, rfl, rfl, hlen, rfl⟩

theorem permute_err_inv (ops : FieldOps F E B) (s s1 : PoseidonSpongeVar F) (e : E)
    (h : PoseidonSpongeVar.permute ops s = (s1, .error e)) : s1 = s := by
  rcases permute_cases ops s with ⟨e2, _, hp⟩ | ⟨st, _, hp⟩ <;> rw [hp] at h <;> cases h
  rfl

/-! Step equations for the two internal loops. -/

theorem absorb_internal_fits (ops : FieldOps F E B) (s : PoseidonSpongeVar F)
    (start : Nat) (elements : List F) (h : start + elements.length ≤ s.rate) :
    PoseidonSpongeVar.absorb_internal ops s start elements =
      ({ s with
          state := absorb_add s.state start elements,
          mode := .Absorbing (start + elements.length) }, .ok ()) := by
  rw [PoseidonSpongeVar.absorb_internal]
  simp [h]

theorem absorb_internal_step (ops : FieldOps F E B) (s : PoseidonSpongeVar F)
    (start : Nat) (elements : List F)
    (h1 : s.rate < start + elements.length) (h2 : ¬(s.rate = 0 ∧ start = 0)) :
    PoseidonSpongeVar.absorb_internal ops s start elements =
      match PoseidonSpongeVar.permute ops
          { s with state :=
              absorb_add s.state start (elements.take (s.rate - start)) } with
      | (s2, .error e) => (s2, .error e)
      | (s2, .ok _) =>
          PoseidonSpongeVar.absorb_internal ops s2 0 (elements.drop (s.rate - start)) := by
  rw [PoseidonSpongeVar.absorb_internal]
  rw [dif_neg (by omega : ¬ start + elements.length ≤ s.rate), dif_neg h2]

theorem squeeze_internal_fits (ops : FieldOps F E B) (s : PoseidonSpongeVar F)
    (start n : Nat) (h : start + n ≤ s.rate) :
    PoseidonSpongeVar.squeeze_internal ops s start n =
      ({ s with mode := .Squeezing (start + n) },
        .ok ((s.state.drop start).take n)) := by
  rw [PoseidonSpongeVar.squeeze_internal]
  simp [h]

theorem squeeze_internal_step_of_ne (ops : FieldOps F E B) (s : PoseidonSpongeVar F)
    (start n : Nat) (h1 : s.rate < start + n) (h2 : ¬(s.rate = 0 ∧ start = 0))
    (h3 : n ≠ s.rate) :
    PoseidonSpongeVar.squeeze_internal ops s start n =
      match PoseidonSpongeVar.permute ops s with
      | (s2, .error e) => (s2, .error e)
      | (s2, .ok _) =>
          match PoseidonSpongeVar.squeeze_internal ops s2 0 (n - (s.rate - start)) with
          | (s3, .error e) => (s3, .error e)
          | (s3, .ok rest) =>
              (s3, .ok ((s.state.drop start).take (s.rate - start) ++ rest)) := by
  rw [PoseidonSpongeVar.squeeze_internal]
  rw [dif_neg (by omega : ¬ start + n ≤ s.rate), dif_neg h2, if_pos h3]

theorem squeeze_internal_step_of_eq (ops : FieldOps F E B) (s : PoseidonSpongeVar F)
    (start n : Nat) (h1 : s.rate < start + n) (h2 : ¬(s.rate = 0 ∧ start = 0))
    (h3 : n = s.rate) :
    PoseidonSpongeVar.squeeze_internal ops s start n =
      match PoseidonSpongeVar.squeeze_internal ops s 0 (n - (s.rate - start)) with
      | (s3, .error e) => (s3, .error e)
      | (s3, .ok rest) =>
          (s3, .ok ((s.state.drop start).take (s.rate - start) ++ rest)) := by
  rw [PoseidonSpongeVar.squeeze_internal]
  rw [dif_neg (by omega : ¬ start + n ≤ s.rate), dif_neg h2, if_neg (by simp [h3])]

theorem absorb_internal_guard (ops : FieldOps F E B) (s : PoseidonSpongeVar F)
    (start : Nat) (elements : List F) (h1 : ¬(start + elements.length ≤ s.rate))
    (h2 : s.rate = 0 ∧ start = 0) :
    PoseidonSpongeVar.absorb_internal ops s start elements = (s, .ok ()) := by
  rw [PoseidonSpongeVar.absorb_internal, dif_neg h1, dif_pos h2]

theorem squeeze_internal_guard (ops : FieldOps F E B) (s : PoseidonSpongeVar F)
    (start n : Nat) (h1 : ¬(start + n ≤ s.rate)) (h2 : s.rate = 0 ∧ start = 0) :
    PoseidonSpongeVar.squeeze_internal ops s start n = (s, .ok []) := by
  rw [PoseidonSpongeVar.squeeze_internal, dif_neg h1, dif_pos h2]

/-- The receiver after `squeeze_internal`: parameters are untouched, the
state keeps its length, the permutation counter never decreases, and the
mode is either untouched or a `Squeezing` cursor that is at most `rate`. -/
theorem squeeze_internal_inv (ops : FieldOps F E B) (s : PoseidonSpongeVar F)
    (start n : Nat) :
    (PoseidonSpongeVar.squeeze_internal ops s start n).1.full_rounds = s.full_rounds ∧
    (PoseidonSpongeVar.squeeze_internal ops s start n).1.partial_rounds = s.partial_rounds ∧
    (PoseidonSpongeVar.squeeze_internal ops s start n).1.alpha = s.alpha ∧
    (PoseidonSpongeVar.squeeze_internal ops s start n).1.ark = s.ark ∧
    (PoseidonSpongeVar.squeeze_internal ops s start n).1.mds = s.mds ∧
    (PoseidonSpongeVar.squeeze_internal ops s start n).1.rate = s.rate ∧
    (PoseidonSpongeVar.squeeze_internal ops s start n).1.capacity = s.capacity ∧
    (PoseidonSpongeVar.squeeze_internal ops s start n).1.state.length = s.state.length ∧
    s.permCount ≤ (PoseidonSpongeVar.squeeze_internal ops s start n).1.permCount ∧
    ((PoseidonSpongeVar.squeeze_internal ops s start n).1.mode = s.mode ∨
      ∃ k, k ≤ s.rate ∧
        (PoseidonSpongeVar.squeeze_internal ops s start n).1.mode = .Squeezing k) := by
  induction s, start, n using PoseidonSpongeVar.squeeze_internal.induct ops with
  | case1 s start n h =>
    rw [squeeze_internal_fits ops s start n h]
    refine ⟨rfl, rfl, rfl, rfl, rfl, rfl, rfl, rfl, le_refl _, Or.inr ⟨start + n, h, rfl⟩⟩
  | case2 s start n h h2 =>
    rw [squeeze_internal_guard ops s start n h h2]
    exact ⟨rfl, rfl, rfl, rfl, rfl, rfl, rfl, rfl, le_refl _, Or.inl rfl⟩
  | case3 s start n h h2 s2 e hif =>
    simp only [dite_eq_ite] at hif
    have hres : PoseidonSpongeVar.squeeze_internal ops s start n = (s2, .error e) := by
      rw [PoseidonSpongeVar.squeeze_internal, dif_neg h, dif_neg h2]
      rw [hif]
    have hs2 : s2 = s := by
      by_cases hc : n ≠ s.rate
      · rw [if_pos hc] at hif
        exact permute_err_inv ops s s2 e hif
      · rw [if_neg hc] at hif
        cases hif
    rw [hres, hs2]
    exact ⟨rfl, rfl, rfl, rfl, rfl, rfl, rfl, rfl, le_refl _, Or.inl rfl⟩
  | case4 s start n h h2 s2 u hif s3 e hrec ih =>
    simp only [dite_eq_ite] at hif
    have hres : PoseidonSpongeVar.squeeze_internal ops s start n = (s3, .error e) := by
      rw [PoseidonSpongeVar.squeeze_internal, dif_neg h, dif_neg h2]
      rw [hif]
      simp only [hrec]
    have hs2 : s2.full_rounds = s.full_rounds ∧ s2.partial_rounds = s.partial_rounds ∧
        s2.alpha = s.alpha ∧ s2.ark = s.ark ∧ s2.mds = s.mds ∧
        s2.rate = s.rate ∧ s2.capacity = s.capacity ∧ s2.mode = s.mode ∧
        s2.state.length = s.state.length ∧ s.permCount ≤ s2.permCount := by
      by_cases hc : n ≠ s.rate
      · rw [if_pos hc] at hif
        have := permute_ok_inv ops s s2 u hif
        exact ⟨this.1, this.2.1, this.2.2.1, this.2.2.2.1, this.2.2.2.2.1,
          this.2.2.2.2.2.1, this.2.2.2.2.2.2.1, this.2.2.2.2.2.2.2.1,
          this.2.2.2.2.2.2.2.2.1, by omega⟩
      · rw [if_neg hc] at hif
        cases hif
        exact ⟨rfl, rfl, rfl, rfl, rfl, rfl, rfl, rfl, rfl, le_refl _⟩
    simp only [hres]
    simp only [hrec] at ih
    obtain ⟨i1, i2, i3, i4, i5, i6, i7, i8, i9, i10⟩ := ih
    obtain ⟨j1, j2, j3, j4, j5, j6, j7, j8, j9, j10⟩ := hs2
    refine ⟨i1.trans j1, i2.trans j2, i3.trans j3, i4.trans j4, i5.trans j5,
      i6.trans j6, i7.trans j7, i8.trans j9, by omega, ?_⟩
    rcases i10 with hmode | ⟨k, hk, hmode⟩
    · rw [hmode, j8]
      exact Or.inl rfl
    · exact Or.inr ⟨k, by omega, hmode⟩
  | case5 s start n h h2 s2 u hif s3 rest hrec ih =>
    simp only [dite_eq_ite] at hif
    have hres : PoseidonSpongeVar.squeeze_internal ops s start n =
        (s3, .ok ((s.state.drop start).take (s.rate - start) ++ rest)) := by
      rw [PoseidonSpongeVar.squeeze_internal, dif_neg h, dif_neg h2]
      rw [hif]
      simp only [hrec]
    have hs2 : s2.full_rounds = s.full_rounds ∧ s2.partial_rounds = s.partial_rounds ∧
        s2.alpha = s.alpha ∧ s2.ark = s.ark ∧ s2.mds = s.mds ∧
        s2.rate = s.rate ∧ s2.capacity = s.capacity ∧ s2.mode = s.mode ∧
        s2.state.length = s.state.length ∧ s.permCount ≤ s2.permCount := by
      by_cases hc : n ≠ s.rate
      · rw [if_pos hc] at hif
        have := permute_ok_inv ops s s2 u hif
        exact ⟨this.1, this.2.1, this.2.2.1, this.2.2.2.1, this.2.2.2.2.1,
          this.2.2.2.2.2.1, this.2.2.2.2.2.2.1, this.2.2.2.2.2.2.2.1,
          this.2.2.2.2.2.2.2.2.1, by omega⟩
      · rw [if_neg hc] at hif
        cases hif
        exact ⟨rfl, rfl, rfl, rfl, rfl, rfl, rfl, rfl, rfl, le_refl _⟩
    simp only [hres]
    simp only [hrec] at ih
    obtain ⟨i1, i2, i3, i4, i5, i6, i7, i8, i9, i10⟩ := ih
    obtain ⟨j1, j2, j3, j4, j5, j6, j7, j8, j9, j10⟩ := hs2
    refine ⟨i1.trans j1, i2.trans j2, i3.trans j3, i4.trans j4, i5.trans j5,
      i6.trans j6, i7.trans j7, i8.trans j9, by omega, ?_⟩
    rcases i10 with hmode | ⟨k, hk, hmode⟩
    · rw [hmode, j8]
      exact Or.inl rfl
    · exact Or.inr ⟨k, by omega, hmode⟩

theorem absorb_add_length (state : List F) (start : Nat) (elements : List F) :
    (absorb_add state start elements).length = state.length := by
  rw [absorb_add]
  generalize elements.enum = l
  induction l generalizing state with
  | nil => rfl
  | cons p l ih =>
    simp only [List.foldl_cons]
    rw [ih]
    simp

/-- The receiver after `absorb_internal`: parameters untouched, state
length kept, permutation counter never decreases, and the mode is either
untouched or an `Absorbing` cursor that is at most `rate`. -/
theorem absorb_internal_inv (ops : FieldOps F E B) (s : PoseidonSpongeVar F)
    (start : Nat) (elements : List F) :
    (PoseidonSpongeVar.absorb_internal ops s start elements).1.full_rounds = s.full_rounds ∧
    (PoseidonSpongeVar.absorb_internal ops s start elements).1.partial_rounds = s.partial_rounds ∧
    (PoseidonSpongeVar.absorb_internal ops s start elements).1.alpha = s.alpha ∧
    (PoseidonSpongeVar.absorb_internal ops s start elements).1.ark = s.ark ∧
    (PoseidonSpongeVar.absorb_internal ops s start elements).1.mds = s.mds ∧
    (PoseidonSpongeVar.absorb_internal ops s start elements).1.rate = s.rate ∧
    (PoseidonSpongeVar.absorb_internal ops s start elements).1.capacity = s.capacity ∧
    (PoseidonSpongeVar.absorb_internal ops s start elements).1.state.length = s.state.length ∧
    s.permCount ≤ (PoseidonSpongeVar.absorb_internal ops s start elements).1.permCount ∧
    ((PoseidonSpongeVar.absorb_internal ops s start elements).1.mode = s.mode ∨
      ∃ k, k ≤ s.rate ∧
        (PoseidonSpongeVar.absorb_internal ops s start elements).1.mode = .Absorbing k) := by
  induction s, start, elements using PoseidonSpongeVar.absorb_internal.induct ops with
  | case1 s start elements h =>
    rw [absorb_internal_fits ops s start elements h]
    refine ⟨rfl, rfl, rfl, rfl, rfl, rfl, rfl, ?_, le_refl _,
      Or.inr ⟨start + elements.length, h, rfl⟩⟩
    simp [absorb_add_length]
  | case2 s start elements h h2 =>
    rw [absorb_internal_guard ops s start elements h h2]
    exact ⟨rfl, rfl, rfl, rfl, rfl, rfl, rfl, rfl, le_refl _, Or.inl rfl⟩
  | case3 s start elements h h2 s2 e hm =>
    have hres : PoseidonSpongeVar.absorb_internal ops s start elements = (s2, .error e) := by
      rw [PoseidonSpongeVar.absorb_internal, dif_neg h, dif_neg h2]
      rw [hm]
    have hs2 := permute_err_inv ops _ s2 e hm
    rw [hres, hs2]
    exact ⟨rfl, rfl, rfl, rfl, rfl, rfl, rfl, absorb_add_length s.state start _, le_refl _,
      Or.inl rfl⟩
  | case4 s start elements h h2 s2 u hm ih =>
    have hres : PoseidonSpongeVar.absorb_internal ops s start elements =
        PoseidonSpongeVar.absorb_internal ops s2 0
          (elements.drop (s.rate - start)) := by
      rw [PoseidonSpongeVar.absorb_internal, dif_neg h, dif_neg h2]
      rw [hm]
    have hs2 := permute_ok_inv ops _ s2 u hm
    dsimp only at hs2
    obtain ⟨j1, j2, j3, j4, j5, j6, j7, j8, j9, j10⟩ := hs2
    obtain ⟨i1, i2, i3, i4, i5, i6, i7, i8, i9, i10⟩ := ih
    simp only [hres]
    simp only [absorb_add_length] at j9
    refine ⟨i1.trans j1, i2.trans j2, i3.trans j3, i4.trans j4, i5.trans j5,
      i6.trans j6, i7.trans j7, i8.trans j9, by omega, ?_⟩
    rcases i10 with hmode | ⟨k, hk, hmode⟩
    · rw [hmode, j8]
      exact Or.inl rfl
    · refine Or.inr ⟨k, by omega, hmode⟩

/-- When `squeeze_internal` succeeds on a sponge with positive rate and a
state at least `rate` long, the output has exactly the requested length. -/
theorem squeeze_internal_ok_length (ops : FieldOps F E B) (s : PoseidonSpongeVar F)
    (start n : Nat) (s2 : PoseidonSpongeVar F) (out : List F)
    (hr : 0 < s.rate) (hs : s.rate ≤ s.state.length)
    (h : PoseidonSpongeVar.squeeze_internal ops s start n = (s2, .ok out)) :
    out.length = n := by
  induction s, start, n using PoseidonSpongeVar.squeeze_internal.induct ops
      generalizing s2 out with
  | case1 s start n hfit =>
    rw [squeeze_internal_fits ops s start n hfit] at h
    cases h
    simp only [List.length_take, List.length_drop]
    omega
  | case2 s start n hc1 hc2 => omega
  | case3 s start n hc1 hc2 s3 e hif =>
    simp only [dite_eq_ite] at hif
    have hres : PoseidonSpongeVar.squeeze_internal ops s start n = (s3, .error e) := by
      rw [PoseidonSpongeVar.squeeze_internal, dif_neg hc1, dif_neg hc2]
      rw [hif]
    rw [hres] at h
    cases h
  | case4 s start n hc1 hc2 s3 u hif s4 e hrec ih =>
    simp only [dite_eq_ite] at hif
    have hres : PoseidonSpongeVar.squeeze_internal ops s start n = (s4, .error e) := by
      rw [PoseidonSpongeVar.squeeze_internal, dif_neg hc1, dif_neg hc2]
      rw [hif]
      simp only [hrec]
    rw [hres] at h
    cases h
  | case5 s start n hc1 hc2 s3 u hif s4 rest hrec ih =>
    simp only [dite_eq_ite] at hif
    have hres : PoseidonSpongeVar.squeeze_internal ops s start n =
        (s4, .ok ((s.state.drop start).take (s.rate - start) ++ rest)) := by
      rw [PoseidonSpongeVar.squeeze_internal, dif_neg hc1, dif_neg hc2]
      rw [hif]
      simp only [hrec]
    rw [hres] at h
    cases h
    have hs3 : s3.rate = s.rate ∧ s3.state.length = s.state.length := by
      by_cases hc : n ≠ s.rate
      · rw [if_pos hc] at hif
        have := permute_ok_inv ops s s3 u hif
        exact ⟨this.2.2.2.2.2.1, this.2.2.2.2.2.2.2.2.1⟩
      · rw [if_neg hc] at hif
        cases hif
        exact ⟨rfl, rfl⟩
    have hrest : rest.length = n - (s.rate - start) :=
      ih s4 rest (by omega) (by omega) hrec
    simp only [List.length_append, List.length_take, List.length_drop]
    omega

/-! Unfolding equations for the public operations. -/

theorem absorb_conv_err (ops : FieldOps F E B) (s : PoseidonSpongeVar F) (e : E) :
    PoseidonSpongeVar.absorb ops s (.error e) = (s, .error e) := rfl

theorem absorb_empty (ops : FieldOps F E B) (s : PoseidonSpongeVar F) :
    PoseidonSpongeVar.absorb ops s (.ok []) = (s, .ok ()) := rfl

theorem absorb_absorbing_partial_block (ops : FieldOps F E B) (s : PoseidonSpongeVar F)
    (i : Nat) (es : List F) (hm : s.mode = .Absorbing i) (hi : i ≠ s.rate)
    (hne : es ≠ []) :
    PoseidonSpongeVar.absorb ops s (.ok es) =
      PoseidonSpongeVar.absorb_internal ops s i es := by
  rw [PoseidonSpongeVar.absorb]
  rw [hm]
  simp [List.isEmpty_iff, hne, hi]

theorem absorb_absorbing_full_block (ops : FieldOps F E B) (s : PoseidonSpongeVar F)
    (es : List F) (hm : s.mode = .Absorbing s.rate) (hne : es ≠ []) :
    PoseidonSpongeVar.absorb ops s (.ok es) =
      match PoseidonSpongeVar.permute ops s with
      | (s2, .error e) => (s2, .error e)
      | (s2, .ok _) => PoseidonSpongeVar.absorb_internal ops s2 0 es := by
  rw [PoseidonSpongeVar.absorb]
  rw [hm]
  simp [List.isEmpty_iff, hne]

theorem absorb_squeezing (ops : FieldOps F E B) (s : PoseidonSpongeVar F)
    (i : Nat) (es : List F) (hm : s.mode = .Squeezing i) (hne : es ≠ []) :
    PoseidonSpongeVar.absorb ops s (.ok es) =
      match PoseidonSpongeVar.permute ops s with
      | (s2, .error e) => (s2, .error e)
      | (s2, .ok _) => PoseidonSpongeVar.absorb_internal ops s2 0 es := by
  rw [PoseidonSpongeVar.absorb]
  rw [hm]
  simp [List.isEmpty_iff, hne]

theorem squeeze_field_elements_absorbing (ops : FieldOps F E B) (s : PoseidonSpongeVar F)
    (n : Nat) (i : Nat) (hm : s.mode = .Absorbing i) :
    PoseidonSpongeVar.squeeze_field_elements ops s n =
      match PoseidonSpongeVar.permute ops s with
      | (s2, .error e) => (s2, .error e)
      | (s2, .ok _) => PoseidonSpongeVar.squeeze_internal ops s2 0 n := by
  rw [PoseidonSpongeVar.squeeze_field_elements]
  rw [hm]

theorem squeeze_field_elements_squeezing_full (ops : FieldOps F E B)
    (s : PoseidonSpongeVar F) (n : Nat) (hm : s.mode = .Squeezing s.rate) :
    PoseidonSpongeVar.squeeze_field_elements ops s n =
      match PoseidonSpongeVar.permute ops s with
      | (s2, .error e) => (s2, .error e)
      | (s2, .ok _) => PoseidonSpongeVar.squeeze_internal ops s2 0 n := by
  rw [PoseidonSpongeVar.squeeze_field_elements]
  rw [hm]
  simp

theorem squeeze_field_elements_squeezing_mid (ops : FieldOps F E B)
    (s : PoseidonSpongeVar F) (n : Nat) (i : Nat) (hm : s.mode = .Squeezing i)
    (hi : i ≠ s.rate) :
    PoseidonSpongeVar.squeeze_field_elements ops s n =
      PoseidonSpongeVar.squeeze_internal ops s i n := by
  rw [PoseidonSpongeVar.squeeze_field_elements]
  rw [hm]
  simp [hi]

theorem squeeze_field_elements_ok_length (ops : FieldOps F E B) (s : PoseidonSpongeVar F)
    (n : Nat) (s2 : PoseidonSpongeVar F) (out : List F)
    (hr : 0 < s.rate) (hs : s.rate ≤ s.state.length)
    (h : PoseidonSpongeVar.squeeze_field_elements ops s n = (s2, .ok out)) :
    out.length = n := by
  cases hm : s.mode with
  | Absorbing i =>
    rw [squeeze_field_elements_absorbing ops s n i hm] at h
    cases hp : PoseidonSpongeVar.permute ops s with
    | mk s3 r =>
      cases r with
      | error e =>
        simp only [hp] at h
        exact absurd h (by simp)
      | ok u =>
        simp only [hp] at h
        have hinv := permute_ok_inv ops s s3 u hp
        exact squeeze_internal_ok_length ops s3 0 n s2 out (by omega) (by omega) h
  | Squeezing i =>
    by_cases hi : i = s.rate
    · rw [squeeze_field_elements_squeezing_full ops s n (hi ▸ hm)] at h
      cases hp : PoseidonSpongeVar.permute ops s with
      | mk s3 r =>
        cases r with
        | error e =>
          simp only [hp] at h
          exact absurd h (by simp)
        | ok u =>
          simp only [hp] at h
          have hinv := permute_ok_inv ops s s3 u hp
          exact squeeze_internal_ok_length ops s3 0 n s2 out (by omega) (by omega) h
    · rw [squeeze_field_elements_squeezing_mid ops s n i hm hi] at h
      exact squeeze_internal_ok_length ops s i n s2 out hr hs h

/-- The cursor of a mode value. -/
def mode_cursor : PoseidonSpongeMode → Nat
  | .Absorbing i => i
  | .Squeezing i => i

/-- Invariant of the spec (3): the mode cursor lies between 0 and `rate`
(the lower bound is vacuous over `Nat`). -/
def cursor_in_range (s : PoseidonSpongeVar F) : Prop :=
  mode_cursor s.mode ≤ s.rate

theorem absorb_internal_cursor (ops : FieldOps F E B) (s : PoseidonSpongeVar F)
    (start : Nat) (elements : List F) (hinv : cursor_in_range s) :
    cursor_in_range (PoseidonSpongeVar.absorb_internal ops s start elements).1 := by
  obtain ⟨_, _, _, _, _, h6, _, _, _, h10⟩ := absorb_internal_inv ops s start elements
  rcases h10 with hmode | ⟨k, hk, hmode⟩
  · rw [cursor_in_range, hmode, h6]
    exact hinv
  · rw [cursor_in_range, hmode, h6]
    simpa [mode_cursor] using hk

theorem squeeze_internal_cursor (ops : FieldOps F E B) (s : PoseidonSpongeVar F)
    (start n : Nat) (hinv : cursor_in_range s) :
    cursor_in_range (PoseidonSpongeVar.squeeze_internal ops s start n).1 := by
  obtain ⟨_, _, _, _, _, h6, _, _, _, h10⟩ := squeeze_internal_inv ops s start n
  rcases h10 with hmode | ⟨k, hk, hmode⟩
  · rw [cursor_in_range, hmode, h6]
    exact hinv
  · rw [cursor_in_range, hmode, h6]
    simpa [mode_cursor] using hk

theorem permute_cursor (ops : FieldOps F E B) (s : PoseidonSpongeVar F)
    (hinv : cursor_in_range s) :
    cursor_in_range (PoseidonSpongeVar.permute ops s).1 := by
  rcases permute_cases ops s with ⟨e, _, hp⟩ | ⟨st, _, hp⟩ <;>
    rw [cursor_in_range, hp] <;> exact hinv

theorem absorb_cursor (ops : FieldOps F E B) (s : PoseidonSpongeVar F)
    (input : Except E (List F)) (hinv : cursor_in_range s) :
    cursor_in_range (PoseidonSpongeVar.absorb ops s input).1 := by
  cases input with
  | error e => exact hinv
  | ok es =>
    cases es with
    | nil => exact hinv
    | cons a es =>
      cases hm : s.mode with
      | Absorbing i =>
        by_cases hi : i = s.rate
        · rw [absorb_absorbing_full_block ops s (a :: es) (hi ▸ hm) (by simp)]
          cases hp : PoseidonSpongeVar.permute ops s with
          | mk s3 r =>
            cases r with
            | error e =>
              have := permute_err_inv ops s s3 e hp
              simp only [this]
              exact hinv
            | ok u =>
              simp only []
              have hinvp : cursor_in_range s3 := by
                have h := permute_cursor ops s hinv
                rw [hp] at h
                exact h
              exact absorb_internal_cursor ops s3 0 (a :: es) hinvp
        · rw [absorb_absorbing_partial_block ops s i (a :: es) hm hi (by simp)]
          exact absorb_internal_cursor ops s i (a :: es) hinv
      | Squeezing i =>
        rw [absorb_squeezing ops s i (a :: es) hm (by simp)]
        cases hp : PoseidonSpongeVar.permute ops s with
        | mk s3 r =>
          cases r with
          | error e =>
            have := permute_err_inv ops s s3 e hp
            simp only [this]
            exact hinv
          | ok u =>
            simp only []
            have hinvp : cursor_in_range s3 := by
              have h := permute_cursor ops s hinv
              rw [hp] at h
              exact h
            exact absorb_internal_cursor ops s3 0 (a :: es) hinvp

theorem squeeze_field_elements_cursor (ops : FieldOps F E B) (s : PoseidonSpongeVar F)
    (n : Nat) (hinv : cursor_in_range s) :
    cursor_in_range (PoseidonSpongeVar.squeeze_field_elements ops s n).1 := by
  cases hm : s.mode with
  | Absorbing i =>
    rw [squeeze_field_elements_absorbing ops s n i hm]
    cases hp : PoseidonSpongeVar.permute ops s with
    | mk s3 r =>
      cases r with
      | error e =>
        have := permute_err_inv ops s s3 e hp
        simp only [this]
        exact hinv
      | ok u =>
        simp only []
        have hinvp : cursor_in_range s3 := by
          have h := permute_cursor ops s hinv
          rw [hp] at h
          exact h
        exact squeeze_internal_cursor ops s3 0 n hinvp
  | Squeezing i =>
    by_cases hi : i = s.rate
    · rw [squeeze_field_elements_squeezing_full ops s n (hi ▸ hm)]
      cases hp : PoseidonSpongeVar.permute ops s with
      | mk s3 r =>
        cases r with
        | error e =>
          have := permute_err_inv ops s s3 e hp
          simp only [this]
          exact hinv
        | ok u =>
          simp only []
          have hinvp : cursor_in_range s3 := by
            have h := permute_cursor ops s hinv
            rw [hp] at h
            exact h
          exact squeeze_internal_cursor ops s3 0 n hinvp
    · rw [squeeze_field_elements_squeezing_mid ops s n i hm hi]
      exact squeeze_internal_cursor ops s i n hinv

theorem squeeze_bytes_fst (ops : FieldOps F E B) (s : PoseidonSpongeVar F) (n : Nat) :
    (PoseidonSpongeVar.squeeze_bytes ops s n).1 =
      (PoseidonSpongeVar.squeeze_field_elements ops s
        ((n + ops.CAPACITY / 8 - 1) / (ops.CAPACITY / 8))).1 := by
  rw [PoseidonSpongeVar.squeeze_bytes]
  cases h : PoseidonSpongeVar.squeeze_field_elements ops s
      ((n + ops.CAPACITY / 8 - 1) / (ops.CAPACITY / 8)) with
  | mk s2 r =>
    cases r with
    | error e => simp
    | ok elems =>
      simp only []
      cases hmm : elems.mapM
          (fun elem => (ops.toBytes elem).map (fun bs => bs.take (ops.CAPACITY / 8))) with
      | error e => simp
      | ok pieces => simp

theorem squeeze_bits_fst (ops : FieldOps F E B) (s : PoseidonSpongeVar F) (n : Nat) :
    (PoseidonSpongeVar.squeeze_bits ops s n).1 =
      (PoseidonSpongeVar.squeeze_field_elements ops s
        ((n + ops.CAPACITY - 1) / ops.CAPACITY)).1 := by
  rw [PoseidonSpongeVar.squeeze_bits]
  cases h : PoseidonSpongeVar.squeeze_field_elements ops s
      ((n + ops.CAPACITY - 1) / ops.CAPACITY) with
  | mk s2 r =>
    cases r with
    | error e => simp
    | ok elems =>
      simp only []
      cases hmm : elems.mapM
          (fun elem => (ops.toBitsLe elem).map (fun bs => bs.take ops.CAPACITY)) with
      | error e => simp
      | ok pieces => simp

theorem absorb_add_cons (state : List F) (start : Nat) (e : F) (es : List F) :
    absorb_add state start (e :: es) =
      absorb_add (state.set start (state.getD start 0 + e)) (start + 1) es := by
  rw [absorb_add, absorb_add]
  rw [List.enum_cons, List.foldl_cons]
  rw [List.enumFrom_eq_map_enum, List.foldl_map]
  simp only [Nat.zero_add]
  exact List.foldl_ext _ _ _ (fun st p _ => by
    obtain ⟨i, x⟩ := p
    simp only [Prod.map_apply, id_eq]
    have hi : i + 1 + start = i + (start + 1) := by omega
    rw [hi])

theorem absorb_add_nil (state : List F) (start : Nat) :
    absorb_add state start [] = state := rfl

/-- Element-wise characterisation of the fill loop: positions
`start ≤ j < start + elements.length` receive the sum of the old entry and
the input element, every other position is untouched (addition, never
overwrite). -/
theorem absorb_add_getD (elements : List F) : ∀ (state : List F) (start : Nat),
    start + elements.length ≤ state.length → ∀ (j : Nat),
    (absorb_add state start elements).getD j 0 =
      if start ≤ j ∧ j < start + elements.length
      then state.getD j 0 + elements.getD (j - start) 0
      else state.getD j 0 := by
  induction elements with
  | nil =>
    intro state start _ j
    rw [absorb_add_nil, if_neg (by simp only [List.length_nil]; omega)]
  | cons e es ih =>
    intro state start h j
    simp only [List.length_cons] at h ⊢
    rw [absorb_add_cons]
    rw [ih (state.set start (state.getD start 0 + e)) (start + 1)
      (by simp only [List.length_set]; omega) j]
    have hstart : start < state.length := by omega
    by_cases h1 : start + 1 ≤ j ∧ j < start + 1 + es.length
    · rw [if_pos h1, if_pos (by omega)]
      have hne : start ≠ j := by omega
      have hset : (state.set start (state.getD start 0 + e)).getD j 0 = state.getD j 0 := by
        simp [List.getD_eq_getElem?_getD, List.getElem?_set_ne hne]
      rw [hset]
      have hj : j - start = (j - (start + 1)) + 1 := by omega
      rw [hj]
      simp
    · rw [if_neg h1]
      by_cases h2 : j = start
      · subst h2
        rw [if_pos (by omega)]
        have hset : (state.set j (state.getD j 0 + e)).getD j 0 = state.getD j 0 + e := by
          simp [List.getD_eq_getElem?_getD, List.getElem?_set_self hstart]
        rw [hset]
        simp
      · rw [if_neg (by omega)]
        simp [List.getD_eq_getElem?_getD, List.getElem?_set_ne
          (by omega : start ≠ j)]

/-! Spec-side round function (4.1 of the spec), used to check the round
structure of `permute` against the spec's words.  `t` is the state size
`rate + capacity`. -/

/-- Following the spec: add round constant `round_constants[r]` element-wise. -/
def spec_add_ark (st arkRow : List F) : List F := List.zipWith (· + ·) st arkRow

/-- Following the spec: apply the S-box `x ↦ x ^ alpha` to every state
element in a full round, and only to the last state element (index
`rate + capacity - 1`, that is `t - 1`) in a partial round, all other
elements unchanged. -/
def spec_s_box (alpha t : Nat) (is_full : Bool) (st : List F) : List F :=
  if is_full then st.map (fun x => x ^ alpha)
  else st.set (t - 1) (st.getD (t - 1) 0 ^ alpha)

/-- Following the spec: new state element `i` is the sum over `j` of
`mixing_matrix[i][j] * state[j]`. -/
def spec_mds_mul (mds : List (List F)) (st : List F) : List F :=
  (List.range st.length).map (fun i =>
    st.enum.foldl (fun cur je => cur + (mds.getD i []).getD je.1 0 * je.2) 0)

/-- One round as the spec words it: add-round-constant, then S-box, then
mixing-matrix multiply. -/
def spec_round (alpha t : Nat) (arkRow : List F) (mds : List (List F))
    (is_full : Bool) (st : List F) : List F :=
  spec_mds_mul mds (spec_s_box alpha t is_full (spec_add_ark st arkRow))

/-- The spec permutation: `full_rounds + partial_rounds` rounds in order,
round `r` being full exactly when `r < full_rounds / 2` or
`full_rounds / 2 + partial_rounds ≤ r`. -/
def spec_permute (full_rounds partial_rounds alpha t : Nat)
    (ark mds : List (List F)) (st : List F) : List F :=
  (List.range (full_rounds + partial_rounds)).foldl
    (fun st r =>
      spec_round alpha t (ark.getD r []) mds
        (decide (r < full_rounds / 2 ∨ full_rounds / 2 + partial_rounds ≤ r)) st) st

theorem mapIdx_add_eq_zipWith (st row : List F) (h : row.length = st.length) :
    st.mapIdx (fun i x => x + row.getD i 0) = spec_add_ark st row := by
  apply List.ext_getElem
  · simp [spec_add_ark, h]
  · intro i h1 h2
    simp only [List.getElem_mapIdx, spec_add_ark, List.getElem_zipWith]
    have hi : i < row.length := by simp at h1; omega
    rw [List.getD_eq_getElem?_getD, List.getElem?_eq_getElem hi]
    rfl

theorem apply_s_box_pure (ops : FieldOps F E B) (s : PoseidonSpongeVar F)
    (st : List F) (b : Bool) (hpow : ∀ x a, ops.pow x a = .ok (x ^ a)) :
    PoseidonSpongeVar.apply_s_box ops s st b = .ok (spec_s_box s.alpha st.length b st) := by
  rw [PoseidonSpongeVar.apply_s_box, spec_s_box]
  cases b with
  | true =>
    simp only [if_true]
    exact mapM_ok_of_ok _ _ st (fun x _ => hpow x s.alpha)
  | false =>
    simp only [Bool.false_eq_true, if_false]
    rw [hpow]

theorem apply_mds_spec (s : PoseidonSpongeVar F) (st : List F) :
    PoseidonSpongeVar.apply_mds (E := E) s st = .ok (spec_mds_mul s.mds st) := by
  rw [PoseidonSpongeVar.apply_mds, spec_mds_mul]
  congr 1
  apply List.map_congr_left
  intro i _
  exact List.foldl_ext _ _ 0 (fun cur je _ => by rw [mul_comm])

theorem spec_add_ark_length (st row : List F) (h : row.length = st.length) :
    (spec_add_ark st row).length = st.length := by
  simp [spec_add_ark, h]

theorem spec_s_box_length (alpha t : Nat) (b : Bool) (st : List F) :
    (spec_s_box alpha t b st).length = st.length := by
  rw [spec_s_box]
  cases b <;> simp

theorem spec_mds_mul_length (mds : List (List F)) (st : List F) :
    (spec_mds_mul mds st).length = st.length := by
  simp [spec_mds_mul]

theorem spec_round_length (alpha t : Nat) (arkRow : List F) (mds : List (List F))
    (b : Bool) (st : List F) (h : arkRow.length = st.length) :
    (spec_round alpha t arkRow mds b st).length = st.length := by
  rw [spec_round, spec_mds_mul_length, spec_s_box_length, spec_add_ark_length st arkRow h]

theorem poseidon_round_spec (ops : FieldOps F E B) (s : PoseidonSpongeVar F)
    (b : Bool) (st : List F) (i : Nat)
    (hpow : ∀ x a, ops.pow x a = .ok (x ^ a))
    (hrow : (s.ark.getD i []).length = st.length) :
    PoseidonSpongeVar.poseidon_round ops s b st i =
      .ok (spec_round s.alpha st.length (s.ark.getD i []) s.mds b st) := by
  rw [PoseidonSpongeVar.poseidon_round]
  simp only [PoseidonSpongeVar.apply_ark, Bind.bind, Except.bind]
  rw [mapIdx_add_eq_zipWith st (s.ark.getD i []) hrow]
  rw [apply_s_box_pure ops s _ b hpow]
  rw [spec_add_ark_length st (s.ark.getD i []) hrow]
  simp only [apply_mds_spec, spec_round]

theorem foldlM_rounds_spec (ops : FieldOps F E B) (s : PoseidonSpongeVar F)
    (b : Bool) (t : Nat) (hpow : ∀ x a, ops.pow x a = .ok (x ^ a)) :
    ∀ (L : List Nat) (st : List F), st.length = t →
      (∀ r ∈ L, (s.ark.getD r []).length = t) →
      L.foldlM (PoseidonSpongeVar.poseidon_round ops s b) st =
        .ok (L.foldl
          (fun st r => spec_round s.alpha t (s.ark.getD r []) s.mds b st) st)
  | [], st, _, _ => rfl
  | r :: L, st, hlen, hark => by
    rw [List.foldlM_cons, List.foldl_cons]
    have hrow : (s.ark.getD r []).length = st.length := by
      rw [hlen]; exact hark r (by simp)
    rw [poseidon_round_spec ops s b st r hpow hrow]
    have hbind : ∀ (x : List F) (f : List F → Except E (List F)),
        (Except.ok x >>= f) = f x := fun _ _ => rfl
    rw [hbind, hlen]
    exact foldlM_rounds_spec ops s b t hpow L _
      (by rw [spec_round_length _ _ _ _ _ _ hrow]; exact hlen)
      (fun r2 h2 => hark r2 (by simp [h2]))

theorem spec_fold_length (s : PoseidonSpongeVar F) (b : Bool) (t : Nat) :
    ∀ (L : List Nat) (st : List F), st.length = t →
      (∀ r ∈ L, (s.ark.getD r []).length = t) →
      (L.foldl (fun st r => spec_round s.alpha t (s.ark.getD r []) s.mds b st) st).length = t
  | [], st, hlen, _ => hlen
  | r :: L, st, hlen, hark => by
    rw [List.foldl_cons]
    exact spec_fold_length s b t L _
      (by rw [spec_round_length _ _ _ _ _ _ (by rw [hlen]; exact hark r (by simp))]; exact hlen)
      (fun r2 h2 => hark r2 (by simp [h2]))

theorem spec_permute_eq_three (full_rounds partial_rounds alpha t : Nat)
    (ark mds : List (List F)) (st : List F) :
    spec_permute full_rounds partial_rounds alpha t ark mds st =
      (List.range' (full_rounds / 2 + partial_rounds)
        (partial_rounds + full_rounds - (full_rounds / 2 + partial_rounds))).foldl
        (fun st r => spec_round alpha t (ark.getD r []) mds true st)
        ((List.range' (full_rounds / 2) partial_rounds).foldl
          (fun st r => spec_round alpha t (ark.getD r []) mds false st)
          ((List.range' 0 (full_rounds / 2)).foldl
            (fun st r => spec_round alpha t (ark.getD r []) mds true st) st)) := by
  have hhalf : full_rounds / 2 ≤ full_rounds := Nat.div_le_self _ _
  have hseg1 : ∀ st0 : List F,
      (List.range' 0 (full_rounds / 2)).foldl
        (fun st r => spec_round alpha t (ark.getD r []) mds
          (decide (r < full_rounds / 2 ∨ full_rounds / 2 + partial_rounds ≤ r)) st) st0 =
      (List.range' 0 (full_rounds / 2)).foldl
        (fun st r => spec_round alpha t (ark.getD r []) mds true st) st0 := by
    intro st0
    apply List.foldl_ext
    intro a r hr
    rw [List.mem_range'_1] at hr
    rw [decide_eq_true (Or.inl (by omega : r < full_rounds / 2))]
  have hseg2 : ∀ st0 : List F,
      (List.range' (full_rounds / 2) partial_rounds).foldl
        (fun st r => spec_round alpha t (ark.getD r []) mds
          (decide (r < full_rounds / 2 ∨ full_rounds / 2 + partial_rounds ≤ r)) st) st0 =
      (List.range' (full_rounds / 2) partial_rounds).foldl
        (fun st r => spec_round alpha t (ark.getD r []) mds false st) st0 := by
    intro st0
    apply List.foldl_ext
    intro a r hr
    rw [List.mem_range'_1] at hr
    rw [decide_eq_false
      (by omega : ¬(r < full_rounds / 2 ∨ full_rounds / 2 + partial_rounds ≤ r))]
  have hseg3 : ∀ st0 : List F,
      (List.range' (full_rounds / 2 + partial_rounds)
        (partial_rounds + full_rounds - (full_rounds / 2 + partial_rounds))).foldl
        (fun st r => spec_round alpha t (ark.getD r []) mds
          (decide (r < full_rounds / 2 ∨ full_rounds / 2 + partial_rounds ≤ r)) st) st0 =
      (List.range' (full_rounds / 2 + partial_rounds)
        (partial_rounds + full_rounds - (full_rounds / 2 + partial_rounds))).foldl
        (fun st r => spec_round alpha t (ark.getD r []) mds true st) st0 := by
    intro st0
    apply List.foldl_ext
    intro a r hr
    rw [List.mem_range'_1] at hr
    rw [decide_eq_true
      (Or.inr (by omega : full_rounds / 2 + partial_rounds ≤ r))]
  rw [spec_permute, List.range_eq_range']
  have hsplit1 : full_rounds + partial_rounds =
      ((partial_rounds + full_rounds - (full_rounds / 2 + partial_rounds)) +
        partial_rounds) + full_rounds / 2 := by omega
  rw [hsplit1]
  rw [← List.range'_append_1 0 (full_rounds / 2)
    ((partial_rounds + full_rounds - (full_rounds / 2 + partial_rounds)) + partial_rounds)]
  rw [List.foldl_append]
  rw [← List.range'_append_1 (0 + full_rounds / 2) partial_rounds
    (partial_rounds + full_rounds - (full_rounds / 2 + partial_rounds))]
  rw [List.foldl_append]
  simp only [Nat.zero_add]
  rw [hseg1 st]
  rw [hseg2]
  rw [hseg3]

theorem permute_rounds_spec (ops : FieldOps F E B) (s : PoseidonSpongeVar F) (t : Nat)
    (hpow : ∀ x a, ops.pow x a = .ok (x ^ a))
    (hlen : s.state.length = t)
    (hark : ∀ r, r < s.full_rounds + s.partial_rounds → (s.ark.getD r []).length = t) :
    PoseidonSpongeVar.permute_rounds ops s =
      .ok (spec_permute s.full_rounds s.partial_rounds s.alpha t s.ark s.mds s.state) := by
  have hhalf : s.full_rounds / 2 ≤ s.full_rounds := Nat.div_le_self _ _
  have hark1 : ∀ r ∈ List.range' 0 (s.full_rounds / 2), (s.ark.getD r []).length = t := by
    intro r hr
    rw [List.mem_range'_1] at hr
    exact hark r (by omega)
  have hark2 : ∀ r ∈ List.range' (s.full_rounds / 2) s.partial_rounds,
      (s.ark.getD r []).length = t := by
    intro r hr
    rw [List.mem_range'_1] at hr
    exact hark r (by omega)
  have hark3 : ∀ r ∈ List.range' (s.full_rounds / 2 + s.partial_rounds)
      (s.partial_rounds + s.full_rounds - (s.full_rounds / 2 + s.partial_rounds)),
      (s.ark.getD r []).length = t := by
    intro r hr
    rw [List.mem_range'_1] at hr
    exact hark r (by omega)
  have e1 := foldlM_rounds_spec ops s true t hpow
    (List.range' 0 (s.full_rounds / 2)) s.state hlen hark1
  have l1 := spec_fold_length s true t (List.range' 0 (s.full_rounds / 2)) s.state hlen hark1
  have e2 := foldlM_rounds_spec ops s false t hpow
    (List.range' (s.full_rounds / 2) s.partial_rounds) _ l1 hark2
  have l2 := spec_fold_length s false t (List.range' (s.full_rounds / 2) s.partial_rounds)
    _ l1 hark2
  have e3 := foldlM_rounds_spec ops s true t hpow
    (List.range' (s.full_rounds / 2 + s.partial_rounds)
      (s.partial_rounds + s.full_rounds - (s.full_rounds / 2 + s.partial_rounds))) _ l2 hark3
  rw [PoseidonSpongeVar.permute_rounds]
  simp only [Bind.bind, Except.bind]
  simp only [e1, e2, e3, pure, Except.pure]
  rw [spec_permute_eq_three]

/-! Concrete instances over `ZMod 256`, used to evaluate the embedding on
explicit inputs: an all-succeeding operation set, an always-failing power
oracle, small round parameters, and some reachable sponge states. -/

/-- Concrete circuit operations where nothing fails: the power oracle is
the ring power, a byte is the value of the element (one byte per element,
`CAPACITY = 8`). -/
def opsZ : FieldOps (ZMod 256) Unit Nat :=
  { pow := fun x a => .ok (x ^ a)
    toBytes := fun x => .ok [x.val]
    toBitsLe := fun x => .ok ((List.range 8).map (fun i => decide (x.val / 2 ^ i % 2 = 1)))
    CAPACITY := 8 }

/-- Concrete circuit operations whose power oracle always fails with a
construction error. -/
def opsFail : FieldOps (ZMod 256) Unit Nat :=
  { pow := fun _ _ => .error ()
    toBytes := fun x => .ok [x.val]
    toBitsLe := fun _ => .ok (List.replicate 8 false)
    CAPACITY := 8 }

/-- Small concrete parameters: 2 full rounds, no partial round, identity
S-box and identity MDS, one nonzero round key, so that the permutation
adds 1 to the first state element. -/
def paramsZ : PoseidonParameters (ZMod 256) :=
  { full_rounds := 2
    partial_rounds := 0
    alpha := 1
    ark := [[1, 0, 0], [0, 0, 0]]
    mds := [[1, 0, 0], [0, 1, 0], [0, 0, 1]] }

/-- The freshly constructed sponge over `paramsZ`. -/
def spongeZ : PoseidonSpongeVar (ZMod 256) := PoseidonSpongeVar.new paramsZ

/-- The sponge reached from `spongeZ` by squeezing one field element: its
mode is `Squeezing 1`, mid-block. -/
def spongeZ1 : PoseidonSpongeVar (ZMod 256) :=
  (PoseidonSpongeVar.squeeze_field_elements opsZ spongeZ 1).1

/-- The explicit value of `spongeZ1`. -/
def spongeZ1x : PoseidonSpongeVar (ZMod 256) :=
  { full_rounds := 2
    partial_rounds := 0
    alpha := 1
    ark := [[1, 0, 0], [0, 0, 0]]
    mds := [[1, 0, 0], [0, 1, 0], [0, 0, 1]]
    rate := 2
    capacity := 1
    state := [1, 0, 0]
    mode := .Squeezing 1
    permCount := 1 }

theorem permute_spongeZ :
    PoseidonSpongeVar.permute opsZ spongeZ =
      ({ spongeZ with state := [1, 0, 0], permCount := 1 }, .ok ()) := by
  rw [permute_ok_eq opsZ spongeZ [1, 0, 0] (by rfl)]
  rfl

theorem spongeZ1_eval : spongeZ1 = spongeZ1x := by
  rw [spongeZ1]
  rw [squeeze_field_elements_absorbing opsZ spongeZ 1 0 rfl]
  simp only [permute_spongeZ]
  rw [squeeze_internal_fits opsZ _ 0 1 (by norm_num [spongeZ, PoseidonSpongeVar.new, paramsZ])]
  rfl

theorem permute_spongeZ1x :
    PoseidonSpongeVar.permute opsZ spongeZ1x =
      ({ spongeZ1x with state := [2, 0, 0], permCount := 2 }, .ok ()) := by
  rw [permute_ok_eq opsZ spongeZ1x [2, 0, 0] (by rfl)]
  rfl

theorem squeeze_internal_Z1x_1_2 :
    PoseidonSpongeVar.squeeze_internal opsZ spongeZ1x 1 2 = (spongeZ1x, .ok [0, 1]) := by
  rw [squeeze_internal_step_of_eq opsZ spongeZ1x 1 2 (by decide) (by decide) (by decide)]
  rw [show (2 - (spongeZ1x.rate - 1)) = 1 from rfl]
  rw [squeeze_internal_fits opsZ spongeZ1x 0 1 (by decide)]
  rfl

theorem squeeze_internal_Z1x_1_3 :
    PoseidonSpongeVar.squeeze_internal opsZ spongeZ1x 1 3 =
      ({ spongeZ1x with state := [2, 0, 0], permCount := 2, mode := .Squeezing 2 },
        .ok [0, 2, 0]) := by
  rw [squeeze_internal_step_of_ne opsZ spongeZ1x 1 3 (by decide) (by decide) (by decide)]
  simp only [permute_spongeZ1x]
  rw [show (3 - (spongeZ1x.rate - 1)) = 2 from rfl]
  rw [squeeze_internal_fits opsZ { spongeZ1x with state := [2, 0, 0], permCount := 2 } 0 2
    (by decide)]
  rfl

theorem squeeze_field_elements_Z1x_2 :
    PoseidonSpongeVar.squeeze_field_elements opsZ spongeZ1x 2 = (spongeZ1x, .ok [0, 1]) := by
  rw [squeeze_field_elements_squeezing_mid opsZ spongeZ1x 2 1 rfl (by decide)]
  exact squeeze_internal_Z1x_1_2

theorem squeeze_field_elements_Z1x_3 :
    PoseidonSpongeVar.squeeze_field_elements opsZ spongeZ1x 3 =
      ({ spongeZ1x with state := [2, 0, 0], permCount := 2, mode := .Squeezing 2 },
        .ok [0, 2, 0]) := by
  rw [squeeze_field_elements_squeezing_mid opsZ spongeZ1x 3 1 rfl (by decide)]
  exact squeeze_internal_Z1x_1_3

theorem squeeze_field_elements_Z1x_then_1 :
    PoseidonSpongeVar.squeeze_field_elements opsZ spongeZ1x 1 =
      ({ spongeZ1x with mode := .Squeezing 2 }, .ok [0]) := by
  rw [squeeze_field_elements_squeezing_mid opsZ spongeZ1x 1 1 rfl (by decide)]
  rw [squeeze_internal_fits opsZ spongeZ1x 1 1 (by decide)]
  rfl

theorem squeeze_bytes_Z1_2 :
    PoseidonSpongeVar.squeeze_bytes opsZ spongeZ1 2 = (spongeZ1x, .ok [0, 1]) := by
  rw [spongeZ1_eval, PoseidonSpongeVar.squeeze_bytes]
  rw [show (2 + opsZ.CAPACITY / 8 - 1) / (opsZ.CAPACITY / 8) = 2 from rfl]
  simp only [squeeze_field_elements_Z1x_2]
  rfl

theorem squeeze_bytes_Z1_3 :
    PoseidonSpongeVar.squeeze_bytes opsZ spongeZ1 3 =
      ({ spongeZ1x with state := [2, 0, 0], permCount := 2, mode := .Squeezing 2 },
        .ok [0, 2, 0]) := by
  rw [spongeZ1_eval, PoseidonSpongeVar.squeeze_bytes]
  rw [show (3 + opsZ.CAPACITY / 8 - 1) / (opsZ.CAPACITY / 8) = 3 from rfl]
  simp only [squeeze_field_elements_Z1x_3]
  rfl

/-! The claims. -/

/-- C1: for every state vector and parameter set, `permute` applies
`full_rounds + partial_rounds` rounds in order, each round consisting of
add-round-constant (`ark[round]` added element-wise), then S-box, then
mixing-matrix multiply, where with `half = full_rounds / 2` the rounds
below `half` and from `half + partial_rounds` on are full rounds (S-box
`x ^ alpha` on every state element) and the rounds in between are partial
(S-box only on the last element, index `rate + capacity - 1`, the others
unchanged by the S-box step): whenever the power oracle computes
`x ^ alpha`, `permute` succeeds and commits exactly the spec-side
permutation `spec_permute`. -/
theorem C1_permute_round_structure (ops : FieldOps F E B) (s : PoseidonSpongeVar F)
    (hpow : ∀ x a, ops.pow x a = .ok (x ^ a))
    (hlen : s.state.length = s.rate + s.capacity)
    (hark : ∀ r, r < s.full_rounds + s.partial_rounds →
      (s.ark.getD r []).length = s.rate + s.capacity) :
    PoseidonSpongeVar.permute ops s =
      ({ s with
          state := spec_permute s.full_rounds s.partial_rounds s.alpha
            (s.rate + s.capacity) s.ark s.mds s.state,
          permCount := s.permCount + 1 }, .ok ()) :=
  permute_ok_eq ops s _ (permute_rounds_spec ops s (s.rate + s.capacity) hpow hlen hark)

/-- A concrete sponge with both full and partial rounds, for evaluating the
claims on explicit inputs. -/
def spongeW : PoseidonSpongeVar (ZMod 256) :=
  { full_rounds := 2
    partial_rounds := 1
    alpha := 3
    ark := [[1, 2, 3], [4, 5, 6], [7, 8, 9]]
    mds := [[1, 1, 0], [0, 1, 1], [1, 0, 1]]
    rate := 2
    capacity := 1
    state := [3, 4, 5]
    mode := .Absorbing 1
    permCount := 0 }

/-- Witness for C1 at a concrete sponge with one partial round. -/
theorem C1_witness :
    (∀ x a, opsZ.pow x a = Except.ok (x ^ a)) ∧
    spongeW.state.length = spongeW.rate + spongeW.capacity ∧
    (∀ r, r < spongeW.full_rounds + spongeW.partial_rounds →
      (spongeW.ark.getD r []).length = spongeW.rate + spongeW.capacity) ∧
    PoseidonSpongeVar.permute opsZ spongeW =
      ({ spongeW with
          state := spec_permute spongeW.full_rounds spongeW.partial_rounds spongeW.alpha
            (spongeW.rate + spongeW.capacity) spongeW.ark spongeW.mds spongeW.state,
          permCount := spongeW.permCount + 1 }, .ok ()) :=
  ⟨fun x a => rfl, rfl, by decide,
    C1_permute_round_structure opsZ spongeW (fun x a => rfl) rfl (by decide)⟩

/-- C7: `permute` mutates only a local copy of the state vector and commits
it to `self.state` only after every round step succeeded: if the round
chain (`permute_rounds`, run on the local copy) returns a construction
error, `permute` returns that same error with the receiver exactly as it
was before the call, and if it succeeds the whole new state is committed at
once. -/
theorem C7_permute_atomic_commit (ops : FieldOps F E B) (s : PoseidonSpongeVar F) :
    (∀ e, PoseidonSpongeVar.permute_rounds ops s = .error e →
      PoseidonSpongeVar.permute ops s = (s, .error e)) ∧
    (∀ st, PoseidonSpongeVar.permute_rounds ops s = .ok st →
      PoseidonSpongeVar.permute ops s =
        ({ s with state := st, permCount := s.permCount + 1 }, .ok ())) :=
  ⟨fun e h => permute_err_eq ops s e h, fun st h => permute_ok_eq ops s st h⟩

/-- Witness for C7: with the always-failing power oracle the round chain
fails on the concrete sponge, and the receiver comes back untouched. -/
theorem C7_witness :
    PoseidonSpongeVar.permute_rounds opsFail spongeZ1x = .error () ∧
    PoseidonSpongeVar.permute opsFail spongeZ1x = (spongeZ1x, .error ()) :=
  ⟨rfl, (C7_permute_atomic_commit opsFail spongeZ1x).1 () rfl⟩

/-- C8: absorbing an input that converts to an empty sequence of field
elements returns `Ok` and leaves the whole sponge (state vector, mode with
its cursor, and permutation count) unchanged. -/
theorem C8_absorb_empty_noop (ops : FieldOps F E B) (s : PoseidonSpongeVar F) :
    PoseidonSpongeVar.absorb ops s (.ok []) = (s, .ok ()) := rfl

/-- C9: the cursor bound `next_absorb_index ≤ rate` (in `Absorbing` mode)
and `next_squeeze_index ≤ rate` (in `Squeezing` mode) holds in the state
produced by `new` and is preserved by every public operation, on the
receiver each operation returns (whether it succeeds or errors). -/
theorem C9_cursor_invariant (ops : FieldOps F E B) (params : PoseidonParameters F)
    (s : PoseidonSpongeVar F) (hinv : cursor_in_range s) :
    cursor_in_range (PoseidonSpongeVar.new params) ∧
    (∀ input, cursor_in_range (PoseidonSpongeVar.absorb ops s input).1) ∧
    (∀ n, cursor_in_range (PoseidonSpongeVar.squeeze_field_elements ops s n).1) ∧
    (∀ n, cursor_in_range (PoseidonSpongeVar.squeeze_bytes ops s n).1) ∧
    (∀ n, cursor_in_range (PoseidonSpongeVar.squeeze_bits ops s n).1) := by
  refine ⟨?_, fun input => absorb_cursor ops s input hinv,
    fun n => squeeze_field_elements_cursor ops s n hinv, fun n => ?_, fun n => ?_⟩
  · rw [cursor_in_range]
    simp [PoseidonSpongeVar.new, mode_cursor]
  · rw [squeeze_bytes_fst]
    exact squeeze_field_elements_cursor ops s _ hinv
  · rw [squeeze_bits_fst]
    exact squeeze_field_elements_cursor ops s _ hinv

/-- Witness for C9 on the concrete mid-block squeezing sponge. -/
theorem C9_witness :
    cursor_in_range spongeZ1x ∧
    cursor_in_range (PoseidonSpongeVar.absorb opsZ spongeZ1x (.ok [5])).1 ∧
    cursor_in_range (PoseidonSpongeVar.squeeze_bytes opsZ spongeZ1x 3).1 := by
  have hinv : cursor_in_range spongeZ1x := by
    rw [cursor_in_range]
    decide
  have h := C9_cursor_invariant opsZ paramsZ spongeZ1x hinv
  exact ⟨hinv, h.2.1 (.ok [5]), h.2.2.2.1 3⟩

/-- C4: switching direction triggers exactly one permutation regardless of
cursor position: an `absorb` with non-empty converted input while in
`Squeezing` mode runs one successful permutation (counter `+ 1`) and then
absorbs from index 0, and `squeeze_field_elements` while in `Absorbing`
mode runs one permutation and then squeezes from index 0. -/
theorem C4_mode_switch_one_permutation (ops : FieldOps F E B) (s : PoseidonSpongeVar F) :
    (∀ i es s1, s.mode = .Squeezing i → es ≠ [] →
      PoseidonSpongeVar.permute ops s = (s1, .ok ()) →
      PoseidonSpongeVar.absorb ops s (.ok es) =
        PoseidonSpongeVar.absorb_internal ops s1 0 es ∧
      s1.permCount = s.permCount + 1) ∧
    (∀ i n s1, s.mode = .Absorbing i →
      PoseidonSpongeVar.permute ops s = (s1, .ok ()) →
      PoseidonSpongeVar.squeeze_field_elements ops s n =
        PoseidonSpongeVar.squeeze_internal ops s1 0 n ∧
      s1.permCount = s.permCount + 1) := by
  constructor
  · intro i es s1 hm hne hp
    constructor
    · rw [absorb_squeezing ops s i es hm hne]
      simp only [hp]
    · exact (permute_ok_inv ops s s1 () hp).2.2.2.2.2.2.2.2.2
  · intro i n s1 hm hp
    constructor
    · rw [squeeze_field_elements_absorbing ops s n i hm]
      simp only [hp]
    · exact (permute_ok_inv ops s s1 () hp).2.2.2.2.2.2.2.2.2

/-- Witness for C4: a mode switch on the concrete squeezing sponge, and one
on a concrete absorbing sponge. -/
theorem C4_witness :
    PoseidonSpongeVar.absorb opsZ spongeZ1x (.ok [7]) =
      PoseidonSpongeVar.absorb_internal opsZ
        { spongeZ1x with state := [2, 0, 0], permCount := 2 } 0 [7] ∧
    ({ spongeZ1x with state := [2, 0, 0], permCount := 2 }).permCount =
      spongeZ1x.permCount + 1 :=
  (C4_mode_switch_one_permutation opsZ spongeZ1x).1 1 [7]
    ({ spongeZ1x with state := [2, 0, 0], permCount := 2 }) rfl (by simp)
    permute_spongeZ1x

theorem mode_update_self (s : PoseidonSpongeVar F) (m : PoseidonSpongeMode)
    (h : s.mode = m) : { s with mode := m } = s := by
  cases s
  cases h
  rfl

theorem squeeze_internal_zero_ok_nil (ops : FieldOps F E B) (s : PoseidonSpongeVar F)
    (start : Nat) (s2 : PoseidonSpongeVar F) (out : List F)
    (h : PoseidonSpongeVar.squeeze_internal ops s start 0 = (s2, .ok out)) :
    out = [] := by
  by_cases hfit : start + 0 ≤ s.rate
  · rw [squeeze_internal_fits ops s start 0 hfit] at h
    cases h
    simp
  · by_cases hz : s.rate = 0 ∧ start = 0
    · rw [squeeze_internal_guard ops s start 0 hfit hz] at h
      cases h
      rfl
    · by_cases hrate : (0 : Nat) = s.rate
      · rw [squeeze_internal_step_of_eq ops s start 0 (by omega) hz hrate] at h
        rw [squeeze_internal_fits ops s 0 (0 - (s.rate - start)) (by omega)] at h
        simp only [] at h
        cases h
        simp [show s.rate - start = 0 by omega]
      · rw [squeeze_internal_step_of_ne ops s start 0 (by omega) hz hrate] at h
        rcases permute_cases ops s with ⟨e, _, hp⟩ | ⟨st, hlen, hp⟩
        · rw [hp] at h
          cases h
        · rw [hp] at h
          simp only [] at h
          rw [squeeze_internal_fits ops _ 0 (0 - (s.rate - start)) (by simp)] at h
          simp only [] at h
          cases h
          simp [show s.rate - start = 0 by omega]

theorem squeeze_field_elements_zero_ok_nil (ops : FieldOps F E B)
    (s : PoseidonSpongeVar F) (s2 : PoseidonSpongeVar F) (out : List F)
    (h : PoseidonSpongeVar.squeeze_field_elements ops s 0 = (s2, .ok out)) :
    out = [] := by
  cases hm : s.mode with
  | Absorbing i =>
    rw [squeeze_field_elements_absorbing ops s 0 i hm] at h
    cases hp : PoseidonSpongeVar.permute ops s with
    | mk s3 r =>
      cases r with
      | error e =>
        simp only [hp] at h
        exact absurd h (by simp)
      | ok u =>
        simp only [hp] at h
        exact squeeze_internal_zero_ok_nil ops s3 0 s2 out h
  | Squeezing i =>
    by_cases hi : i = s.rate
    · rw [squeeze_field_elements_squeezing_full ops s 0 (hi ▸ hm)] at h
      cases hp : PoseidonSpongeVar.permute ops s with
      | mk s3 r =>
        cases r with
        | error e =>
          simp only [hp] at h
          exact absurd h (by simp)
        | ok u =>
          simp only [hp] at h
          exact squeeze_internal_zero_ok_nil ops s3 0 s2 out h
    · rw [squeeze_field_elements_squeezing_mid ops s 0 i hm hi] at h
      exact squeeze_internal_zero_ok_nil ops s i s2 out h

/-- C10: unlike an empty absorb, `squeeze_field_elements 0` is not a no-op:
it returns an empty output but still switches the sponge into `Squeezing`
mode, performing one permutation when the sponge was in `Absorbing` mode or
in `Squeezing` mode with cursor equal to `rate` (and none, with the mode
left at its `Squeezing` cursor, otherwise); `squeeze_bytes 0` and
`squeeze_bits 0` inherit this behaviour because they call
`squeeze_field_elements 0` and post-process its output. -/
theorem C10_squeeze_zero_not_noop (ops : FieldOps F E B) (s : PoseidonSpongeVar F) :
    (∀ i s1, s.mode = .Absorbing i →
      PoseidonSpongeVar.permute ops s = (s1, .ok ()) →
      PoseidonSpongeVar.squeeze_field_elements ops s 0 =
        ({ s1 with mode := .Squeezing 0 }, .ok []) ∧
      s1.permCount = s.permCount + 1) ∧
    (∀ s1, s.mode = .Squeezing s.rate →
      PoseidonSpongeVar.permute ops s = (s1, .ok ()) →
      PoseidonSpongeVar.squeeze_field_elements ops s 0 =
        ({ s1 with mode := .Squeezing 0 }, .ok []) ∧
      s1.permCount = s.permCount + 1) ∧
    (∀ i, s.mode = .Squeezing i → i ≠ s.rate → i ≤ s.rate →
      PoseidonSpongeVar.squeeze_field_elements ops s 0 = (s, .ok [])) ∧
    (8 ≤ ops.CAPACITY →
      PoseidonSpongeVar.squeeze_bytes ops s 0 =
        ((PoseidonSpongeVar.squeeze_field_elements ops s 0).1,
          (PoseidonSpongeVar.squeeze_field_elements ops s 0).2.map
            (fun _ => ([] : List B)))) ∧
    (1 ≤ ops.CAPACITY →
      PoseidonSpongeVar.squeeze_bits ops s 0 =
        ((PoseidonSpongeVar.squeeze_field_elements ops s 0).1,
          (PoseidonSpongeVar.squeeze_field_elements ops s 0).2.map
            (fun _ => ([] : List Bool)))) := by
  refine ⟨?_, ?_, ?_, ?_, ?_⟩
  · intro i s1 hm hp
    refine ⟨?_, (permute_ok_inv ops s s1 () hp).2.2.2.2.2.2.2.2.2⟩
    rw [squeeze_field_elements_absorbing ops s 0 i hm]
    simp only [hp]
    rw [squeeze_internal_fits ops s1 0 0 (by omega)]
    rfl
  · intro s1 hm hp
    refine ⟨?_, (permute_ok_inv ops s s1 () hp).2.2.2.2.2.2.2.2.2⟩
    rw [squeeze_field_elements_squeezing_full ops s 0 hm]
    simp only [hp]
    rw [squeeze_internal_fits ops s1 0 0 (by omega)]
    rfl
  · intro i hm hne hle
    rw [squeeze_field_elements_squeezing_mid ops s 0 i hm hne]
    rw [squeeze_internal_fits ops s i 0 (by omega)]
    rw [show i + 0 = i from rfl]
    rw [mode_update_self s (.Squeezing i) hm]
    simp
  · intro hcap
    have hu : 1 ≤ ops.CAPACITY / 8 :=
      (Nat.le_div_iff_mul_le (by omega)).mpr (by omega)
    rw [PoseidonSpongeVar.squeeze_bytes]
    rw [show (0 + ops.CAPACITY / 8 - 1) / (ops.CAPACITY / 8) = 0 from
      Nat.div_eq_of_lt (by omega)]
    cases h : PoseidonSpongeVar.squeeze_field_elements ops s 0 with
    | mk s2 r =>
      cases r with
      | error e => rfl
      | ok out =>
        have : out = [] := squeeze_field_elements_zero_ok_nil ops s s2 out h
        subst this
        rfl
  · intro hcap
    rw [PoseidonSpongeVar.squeeze_bits]
    rw [show (0 + ops.CAPACITY - 1) / ops.CAPACITY = 0 from
      Nat.div_eq_of_lt (by omega)]
    cases h : PoseidonSpongeVar.squeeze_field_elements ops s 0 with
    | mk s2 r =>
      cases r with
      | error e => rfl
      | ok out =>
        have : out = [] := squeeze_field_elements_zero_ok_nil ops s s2 out h
        subst this
        rfl

/-- Witness for C10: squeezing zero elements from the fresh concrete sponge
permutes once and switches the mode to `Squeezing 0`. -/
theorem C10_witness :
    spongeZ.mode = PoseidonSpongeMode.Absorbing 0 ∧
    PoseidonSpongeVar.squeeze_field_elements opsZ spongeZ 0 =
      ({ spongeZ with state := [1, 0, 0], permCount := 1, mode := .Squeezing 0 },
        .ok []) ∧
    ({ spongeZ with state := [1, 0, 0], permCount := 1 } :
      PoseidonSpongeVar (ZMod 256)).permCount = spongeZ.permCount + 1 := by
  have h := (C10_squeeze_zero_not_noop opsZ spongeZ).1 0
    ({ spongeZ with state := [1, 0, 0], permCount := 1 }) rfl permute_spongeZ
  exact ⟨rfl, h.1, h.2⟩

/-- C3: for every start index `start ≤ rate` on a sponge with positive rate
and a state at least `rate` long, and every non-empty input,
`absorb_internal start elements` adds as many leading input elements as fit
into `state[start .. rate]` (element-wise field addition, never overwrite:
position `j` inside the window becomes `state[j] + elements[j - start]`,
every other position is untouched); if all elements fit it stops with mode
`Absorbing (start + elements.length)`, otherwise it fills up to `rate`,
permutes, resets the start index to 0 and continues with the unconsumed
elements. -/
theorem C3_absorb_internal_spec (ops : FieldOps F E B) (s : PoseidonSpongeVar F)
    (start : Nat) (elements : List F) (hne : elements ≠ []) (hstart : start ≤ s.rate)
    (hrate : 0 < s.rate) (hstate : s.rate ≤ s.state.length) :
    (start + elements.length ≤ s.rate →
      PoseidonSpongeVar.absorb_internal ops s start elements =
        ({ s with
            state := absorb_add s.state start elements,
            mode := .Absorbing (start + elements.length) }, .ok ()) ∧
      (absorb_add s.state start elements).length = s.state.length ∧
      (∀ j, (absorb_add s.state start elements).getD j 0 =
        if start ≤ j ∧ j < start + elements.length
        then s.state.getD j 0 + elements.getD (j - start) 0
        else s.state.getD j 0)) ∧
    (s.rate < start + elements.length → ∀ s1,
      PoseidonSpongeVar.permute ops
        { s with state := absorb_add s.state start (elements.take (s.rate - start)) } =
        (s1, .ok ()) →
      PoseidonSpongeVar.absorb_internal ops s start elements =
        PoseidonSpongeVar.absorb_internal ops s1 0 (elements.drop (s.rate - start))) := by
  constructor
  · intro hfit
    refine ⟨absorb_internal_fits ops s start elements hfit,
      absorb_add_length s.state start elements, fun j => ?_⟩
    exact absorb_add_getD elements s.state start (by omega) j
  · intro hover s1 hp
    rw [absorb_internal_step ops s start elements hover (by omega)]
    simp only [hp]

/-- Witness for C3: absorbing one element at start index 1 of the concrete
sponge lands additively in the state. -/
theorem C3_witness :
    ([(5 : ZMod 256)] ≠ []) ∧ (1 : Nat) ≤ spongeZ1x.rate ∧
    1 + [(5 : ZMod 256)].length ≤ spongeZ1x.rate ∧
    PoseidonSpongeVar.absorb_internal opsZ spongeZ1x 1 [(5 : ZMod 256)] =
      ({ spongeZ1x with state := [1, 5, 0], mode := .Absorbing 2 }, .ok ()) := by
  refine ⟨by simp, by decide, by decide, ?_⟩
  have h := ((C3_absorb_internal_spec opsZ spongeZ1x 1 [(5 : ZMod 256)]
    (by simp) (by decide) (by decide) (by decide)).1 (by decide)).1
  rw [h]
  rfl

theorem squeeze_rate_lands_full_cursor (ops : FieldOps F E B) (s : PoseidonSpongeVar F)
    (hr : 0 < s.rate)
    (hb : (∃ i, s.mode = .Absorbing i) ∨ s.mode = .Squeezing 0 ∨
      s.mode = .Squeezing s.rate)
    (s1 : PoseidonSpongeVar F) (out1 : List F)
    (h : PoseidonSpongeVar.squeeze_field_elements ops s s.rate = (s1, .ok out1)) :
    s1.mode = .Squeezing s1.rate ∧ s1.rate = s.rate := by
  rcases hb with ⟨i, hm⟩ | hm | hm
  · rw [squeeze_field_elements_absorbing ops s s.rate i hm] at h
    rcases permute_cases ops s with ⟨e, _, hp⟩ | ⟨st, hlen, hp⟩
    · rw [hp] at h
      exact absurd h (by simp)
    · simp only [hp] at h
      rw [squeeze_internal_fits ops _ 0 s.rate (by dsimp only; omega)] at h
      cases h
      exact ⟨by simp, rfl⟩
  · rw [squeeze_field_elements_squeezing_mid ops s s.rate 0 hm (by omega)] at h
    rw [squeeze_internal_fits ops s 0 s.rate (by omega)] at h
    cases h
    exact ⟨by simp, rfl⟩
  · rw [squeeze_field_elements_squeezing_full ops s s.rate hm] at h
    rcases permute_cases ops s with ⟨e, _, hp⟩ | ⟨st, hlen, hp⟩
    · rw [hp] at h
      exact absurd h (by simp)
    · simp only [hp] at h
      rw [squeeze_internal_fits ops _ 0 s.rate (by dsimp only; omega)] at h
      cases h
      exact ⟨by simp, rfl⟩

theorem squeeze_one_more_from_full_cursor (ops : FieldOps F E B)
    (s1 : PoseidonSpongeVar F) (hr : 0 < s1.rate) (hm : s1.mode = .Squeezing s1.rate)
    (s2 : PoseidonSpongeVar F) (out2 : List F)
    (h : PoseidonSpongeVar.squeeze_field_elements ops s1 1 = (s2, .ok out2)) :
    s2.permCount = s1.permCount + 1 := by
  rw [squeeze_field_elements_squeezing_full ops s1 1 hm] at h
  rcases permute_cases ops s1 with ⟨e, _, hp⟩ | ⟨st, hlen, hp⟩
  · rw [hp] at h
    exact absurd h (by simp)
  · simp only [hp] at h
    rw [squeeze_internal_fits ops _ 0 1 (by dsimp only; omega)] at h
    cases h
    rfl

/-- C2 (amended): in `squeeze_internal`, after copying a partial chunk
`state[start .. rate]` into the output, a permutation is performed before
continuing with `start = 0` if and only if the length of the output still
to be filled at the check (before the slice is advanced) differs from
`rate`; consequently, when the first squeeze begins at a block boundary
(mode `Absorbing`, or `Squeezing` with cursor `0` or `rate`), squeezing
exactly `rate` field elements and then squeezing 1 more element triggers
exactly one additional permutation (not zero, not two). -/
theorem C2_no_redundant_permute (ops : FieldOps F E B) (s : PoseidonSpongeVar F) :
    (∀ start n, s.rate < start + n → ¬(s.rate = 0 ∧ start = 0) →
      (n = s.rate →
        PoseidonSpongeVar.squeeze_internal ops s start n =
          (match PoseidonSpongeVar.squeeze_internal ops s 0 (n - (s.rate - start)) with
           | (s3, .error e) => (s3, .error e)
           | (s3, .ok rest) =>
               (s3, .ok ((s.state.drop start).take (s.rate - start) ++ rest)))) ∧
      (n ≠ s.rate → ∀ s1, PoseidonSpongeVar.permute ops s = (s1, .ok ()) →
        PoseidonSpongeVar.squeeze_internal ops s start n =
          (match PoseidonSpongeVar.squeeze_internal ops s1 0 (n - (s.rate - start)) with
           | (s3, .error e) => (s3, .error e)
           | (s3, .ok rest) =>
               (s3, .ok ((s.state.drop start).take (s.rate - start) ++ rest))) ∧
        s1.permCount = s.permCount + 1)) ∧
    (((∃ i, s.mode = .Absorbing i) ∨ s.mode = .Squeezing 0 ∨
        s.mode = .Squeezing s.rate) → 0 < s.rate →
      ∀ s1 out1 s2 out2,
        PoseidonSpongeVar.squeeze_field_elements ops s s.rate = (s1, .ok out1) →
        PoseidonSpongeVar.squeeze_field_elements ops s1 1 = (s2, .ok out2) →
        s2.permCount = s1.permCount + 1) := by
  constructor
  · intro start n h1 h2
    constructor
    · intro heq
      exact squeeze_internal_step_of_eq ops s start n h1 h2 heq
    · intro hne s1 hp
      refine ⟨?_, (permute_ok_inv ops s s1 () hp).2.2.2.2.2.2.2.2.2⟩
      rw [squeeze_internal_step_of_ne ops s start n h1 h2 hne]
      simp only [hp]
  · intro hb hr s1 out1 s2 out2 h1 h2
    obtain ⟨hm1, hrate1⟩ := squeeze_rate_lands_full_cursor ops s hr hb s1 out1 h1
    exact squeeze_one_more_from_full_cursor ops s1 (by omega) hm1 s2 out2 h2

/-- Witness for C2 at the fresh concrete sponge: squeezing `rate = 2`
elements and then 1 more performs exactly one additional permutation. -/
theorem C2_witness :
    spongeZ.mode = PoseidonSpongeMode.Absorbing 0 ∧ 0 < spongeZ.rate ∧
    PoseidonSpongeVar.squeeze_field_elements opsZ spongeZ 2 =
      ({ spongeZ with state := [1, 0, 0], permCount := 1, mode := .Squeezing 2 },
        .ok [1, 0]) ∧
    PoseidonSpongeVar.squeeze_field_elements opsZ
        ({ spongeZ with state := [1, 0, 0], permCount := 1, mode := .Squeezing 2 }) 1 =
      ({ spongeZ with state := [2, 0, 0], permCount := 2, mode := .Squeezing 1 },
        .ok [2]) ∧
    ({ spongeZ with state := [2, 0, 0], permCount := 2, mode := .Squeezing 1 } :
        PoseidonSpongeVar (ZMod 256)).permCount =
      ({ spongeZ with state := [1, 0, 0], permCount := 1, mode := .Squeezing 2 } :
        PoseidonSpongeVar (ZMod 256)).permCount + 1 := by
  have e1 : PoseidonSpongeVar.squeeze_field_elements opsZ spongeZ 2 =
      ({ spongeZ with state := [1, 0, 0], permCount := 1, mode := .Squeezing 2 },
        .ok [1, 0]) := by
    rw [squeeze_field_elements_absorbing opsZ spongeZ 2 0 rfl]
    simp only [permute_spongeZ]
    rw [squeeze_internal_fits opsZ _ 0 2 (by decide)]
    rfl
  have e2 : PoseidonSpongeVar.squeeze_field_elements opsZ
      ({ spongeZ with state := [1, 0, 0], permCount := 1, mode := .Squeezing 2 }) 1 =
      ({ spongeZ with state := [2, 0, 0], permCount := 2, mode := .Squeezing 1 },
        .ok [2]) := by
    have hp : PoseidonSpongeVar.permute opsZ
        ({ spongeZ with state := [1, 0, 0], permCount := 1, mode := .Squeezing 2 }) =
        ({ spongeZ with state := [2, 0, 0], permCount := 2, mode := .Squeezing 2 },
          .ok ()) := by
      rw [permute_ok_eq opsZ _ [2, 0, 0] (by rfl)]
    rw [squeeze_field_elements_squeezing_full opsZ _ 1 rfl]
    simp only [hp]
    rw [squeeze_internal_fits opsZ _ 0 1 (by decide)]
    rfl
  refine ⟨rfl, by decide, e1, e2, ?_⟩
  exact (C2_no_redundant_permute opsZ spongeZ).2 (Or.inl ⟨0, rfl⟩) (by decide)
    _ [1, 0] _ [2] e1 e2 ▸ rfl

/-- C2 counterexample: from the reachable sponge `spongeZ1` (mode
`Squeezing 1`, mid-block cursor), squeezing exactly `rate = 2` field
elements and then squeezing 1 more element performs zero additional
permutations, not exactly one as the claim states for every state. -/
theorem C2_counterexample :
    PoseidonSpongeVar.squeeze_field_elements opsZ spongeZ1 2 = (spongeZ1x, .ok [0, 1]) ∧
    PoseidonSpongeVar.squeeze_field_elements opsZ spongeZ1x 1 =
      ({ spongeZ1x with mode := .Squeezing 2 }, .ok [0]) ∧
    ¬(({ spongeZ1x with mode := .Squeezing 2 } :
        PoseidonSpongeVar (ZMod 256)).permCount = spongeZ1x.permCount + 1) :=
  ⟨by rw [spongeZ1_eval]; exact squeeze_field_elements_Z1x_2,
   squeeze_field_elements_Z1x_then_1, by decide⟩

/-- C6: evaluation of the code at the failing input.  From the reachable
sponge `spongeZ1` (fresh sponge, one element squeezed, mode `Squeezing 1`),
`squeeze_bytes 2` returns `[0, 1]` while the leading 2 bytes of
`squeeze_bytes 3` on an identical sponge are `[0, 2]`: the truncation
property fails, because `squeeze_internal` skips the permutation when the
remaining output length equals `rate` even though the fill started
mid-block and more output remains. -/
theorem C6_truncation_failure :
    PoseidonSpongeVar.squeeze_bytes opsZ spongeZ1 2 = (spongeZ1x, .ok [0, 1]) ∧
    PoseidonSpongeVar.squeeze_bytes opsZ spongeZ1 3 =
      ({ spongeZ1x with state := [2, 0, 0], permCount := 2, mode := .Squeezing 2 },
        .ok [0, 2, 0]) ∧
    ([0, 1] : List Nat) ≠ List.take 2 [0, 2, 0] :=
  ⟨squeeze_bytes_Z1_2, squeeze_bytes_Z1_3, by decide⟩

theorem flatten_take_length {α β : Type} (elems : List α) (g : α → List β) (u n : Nat)
    (hlen : ∀ x ∈ elems, (g x).length = u) (hn : n ≤ elems.length * u) :
    ((elems.map g).flatten.take n).length = n := by
  have h1 : (elems.map g).flatten.length = elems.length * u := by
    rw [List.length_flatten, List.map_map]
    have h3 : elems.map (List.length ∘ g) = elems.map (fun _ => u) :=
      List.map_congr_left (fun x hx => by simp [Function.comp, hlen x hx])
    rw [h3, List.map_const', List.sum_const_nat]
  rw [List.length_take, h1]
  omega

theorem ceil_div_mul_bounds (n u : Nat) (hu : 1 ≤ u) :
    n ≤ (n + u - 1) / u * u ∧ (n + u - 1) / u * u < n + u := by
  have hdb := Nat.div_add_mod (n + u - 1) u
  have hmod : (n + u - 1) % u < u := Nat.mod_lt _ (by omega)
  rw [Nat.mul_comm ((n + u - 1) / u) u]
  generalize hK : u * ((n + u - 1) / u) = K at hdb
  omega

/-- C5: `squeeze_bytes n` squeezes exactly `ceil(n / usable_bytes)` field
elements, with `usable_bytes = CAPACITY / 8` (the exact-cover bounds
`n ≤ count * usable ∧ count * usable < n + usable` pin the count as the
ceiling); from each squeezed element it keeps the low `usable_bytes` bytes
of the little-endian decomposition, concatenates them in element order and
truncates to exactly `n` bytes, so the result has length exactly `n`.
`squeeze_bits` behaves the same with `usable_bits = CAPACITY`. -/
theorem C5_squeeze_bytes_bits_spec (ops : FieldOps F E B) (s : PoseidonSpongeVar F)
    (hr : 0 < s.rate) (hs : s.rate ≤ s.state.length) :
    (∀ n s1 elems (tb : F → List B), 8 ≤ ops.CAPACITY →
      (∀ x, ops.toBytes x = .ok (tb x) ∧ ops.CAPACITY / 8 ≤ (tb x).length) →
      PoseidonSpongeVar.squeeze_field_elements ops s
        ((n + ops.CAPACITY / 8 - 1) / (ops.CAPACITY / 8)) = (s1, .ok elems) →
      elems.length = (n + ops.CAPACITY / 8 - 1) / (ops.CAPACITY / 8) ∧
      n ≤ elems.length * (ops.CAPACITY / 8) ∧
      elems.length * (ops.CAPACITY / 8) < n + ops.CAPACITY / 8 ∧
      PoseidonSpongeVar.squeeze_bytes ops s n =
        (s1, .ok ((elems.map
          (fun x => (tb x).take (ops.CAPACITY / 8))).flatten.take n)) ∧
      ((elems.map (fun x => (tb x).take (ops.CAPACITY / 8))).flatten.take n).length
        = n) ∧
    (∀ n s1 elems (tbit : F → List Bool), 1 ≤ ops.CAPACITY →
      (∀ x, ops.toBitsLe x = .ok (tbit x) ∧ ops.CAPACITY ≤ (tbit x).length) →
      PoseidonSpongeVar.squeeze_field_elements ops s
        ((n + ops.CAPACITY - 1) / ops.CAPACITY) = (s1, .ok elems) →
      elems.length = (n + ops.CAPACITY - 1) / ops.CAPACITY ∧
      n ≤ elems.length * ops.CAPACITY ∧
      elems.length * ops.CAPACITY < n + ops.CAPACITY ∧
      PoseidonSpongeVar.squeeze_bits ops s n =
        (s1, .ok ((elems.map (fun x => (tbit x).take ops.CAPACITY)).flatten.take n)) ∧
      ((elems.map (fun x => (tbit x).take ops.CAPACITY)).flatten.take n).length = n) := by
  constructor
  · intro n s1 elems tb hcap htb hsq
    have hu : 1 ≤ ops.CAPACITY / 8 := (Nat.le_div_iff_mul_le (by omega)).mpr (by omega)
    have hlen : elems.length = (n + ops.CAPACITY / 8 - 1) / (ops.CAPACITY / 8) :=
      squeeze_field_elements_ok_length ops s _ s1 elems hr hs hsq
    have hkey := ceil_div_mul_bounds n (ops.CAPACITY / 8) hu
    have hmm : elems.mapM
        (fun elem => (ops.toBytes elem).map (fun bs => bs.take (ops.CAPACITY / 8))) =
        .ok (elems.map (fun x => (tb x).take (ops.CAPACITY / 8))) :=
      mapM_ok_of_ok _ _ elems (fun x _ => by rw [(htb x).1]; rfl)
    refine ⟨hlen, by rw [hlen]; exact hkey.1, by rw [hlen]; exact hkey.2, ?_, ?_⟩
    · rw [PoseidonSpongeVar.squeeze_bytes]
      simp only [hsq, hmm]
    · refine flatten_take_length elems _ (ops.CAPACITY / 8) n
        (fun x _ => by have := (htb x).2; rw [List.length_take]; omega)
        (by rw [hlen]; exact hkey.1)
  · intro n s1 elems tbit hcap htb hsq
    have hlen : elems.length = (n + ops.CAPACITY - 1) / ops.CAPACITY :=
      squeeze_field_elements_ok_length ops s _ s1 elems hr hs hsq
    have hkey := ceil_div_mul_bounds n ops.CAPACITY hcap
    have hmm : elems.mapM
        (fun elem => (ops.toBitsLe elem).map (fun bs => bs.take ops.CAPACITY)) =
        .ok (elems.map (fun x => (tbit x).take ops.CAPACITY)) :=
      mapM_ok_of_ok _ _ elems (fun x _ => by rw [(htb x).1]; rfl)
    refine ⟨hlen, by rw [hlen]; exact hkey.1, by rw [hlen]; exact hkey.2, ?_, ?_⟩
    · rw [PoseidonSpongeVar.squeeze_bits]
      simp only [hsq, hmm]
    · refine flatten_take_length elems _ ops.CAPACITY n
        (fun x _ => by have := (htb x).2; rw [List.length_take]; omega)
        (by rw [hlen]; exact hkey.1)

/-- Witness for C5: two bytes squeezed from the concrete sponge come out as
exactly two bytes. -/
theorem C5_witness :
    PoseidonSpongeVar.squeeze_bytes opsZ spongeZ1x 2 = (spongeZ1x, .ok [0, 1]) ∧
    8 ≤ opsZ.CAPACITY ∧ 0 < spongeZ1x.rate := by
  have h := (C5_squeeze_bytes_bits_spec opsZ spongeZ1x (by decide) (by decide)).1 2
    spongeZ1x [0, 1] (fun x => [x.val]) (by decide)
    (fun x => ⟨rfl, by simp [opsZ]⟩)
    (by
      rw [show (2 + opsZ.CAPACITY / 8 - 1) / (opsZ.CAPACITY / 8) = 2 from rfl]
      exact squeeze_field_elements_Z1x_2)
  refine ⟨?_, by decide, by decide⟩
  rw [h.2.2.2.1]
  rfl
